import Mathlib

/-
Verification development for the enviPath pathway/rule core.

The repository's documentation describes the data model (Structures, Rules,
Pathways made of Nodes and Edges, PredictionJobs) and the behaviour of the
operations on them (rule application, pathway construction and depth
maintenance, the submit-and-poll prediction protocol, and stateless
classification).  The executable core itself is not part of the available
sources, so every operation below is modelled from the specification text and
is marked as such in its doc comment.
-/

deriving instance DecidableEq for Except

namespace EnviPath

/-- Modelled from the spec: a Structure is an immutable molecular-structure
value; only its identity matters to the rule and graph semantics, so it is
represented by its identifier. -/
structure Structure where
  sid : Nat
deriving DecidableEq, Repr

/-- Modelled from the spec: the polymorphic Rule hierarchy with the three
variants SimpleRule, SequentialCompositeRule and ParallelCompositeRule.
A SimpleRule is represented by the family of product sets obtainable by
instantiating its reaction pattern at each matching site of the input
structure (an empty site list means the pattern is not present).  The
composite variants carry a non-empty list of sub-rules, written as a head
rule plus the remaining rules. -/
inductive Rule where
  | simple (sites : Structure → List (Finset Structure))
  | seqComp (first : Rule) (rest : List Rule)
  | parComp (first : Rule) (rest : List Rule)

/-- Union of a list of finite sets of structures. -/
def unionList (l : List (Finset Structure)) : Finset Structure :=
  l.foldr (· ∪ ·) ∅

mutual

/-- Modelled from the spec: the matching predicate of every Rule variant.
A SimpleRule matches when its pattern is present (at least one matching
site); a SequentialCompositeRule matches when its first stage matches; a
ParallelCompositeRule matches when any of its stages match. -/
def Rule.matches : Rule → Structure → Bool
  | .simple sites, s => !(sites s).isEmpty
  | .seqComp r _, s => r.matches s
  | .parComp r rs, s => r.matches s || Rule.anyMatches rs s

/-- Disjunction of the matching predicate over a list of rules. -/
def Rule.anyMatches : List Rule → Structure → Bool
  | [], _ => false
  | r :: rs, s => r.matches s || Rule.anyMatches rs s

end

mutual

/-- Modelled from the spec: the application operation of every Rule variant.
A SimpleRule returns all distinct products over its matching sites; a
SequentialCompositeRule pipes a working set through its stages in order,
dropping members a stage does not match; a ParallelCompositeRule returns
the union of the results of the stages that match. -/
def Rule.apply : Rule → Structure → Finset Structure
  | .simple sites, s => unionList (sites s)
  | .seqComp r rs, s => Rule.applySeq (r :: rs) {s}
  | .parComp r rs, s => Rule.applyPar (r :: rs) s

/-- Sequential pipeline: each stage replaces the working set with the union
of its applications over the members it matches. -/
def Rule.applySeq : List Rule → Finset Structure → Finset Structure
  | [], W => W
  | r :: rs, W =>
      Rule.applySeq rs (W.biUnion (fun x => if r.matches x then r.apply x else ∅))

/-- Parallel combination: union of the applications of the matching stages. -/
def Rule.applyPar : List Rule → Structure → Finset Structure
  | [], _ => ∅
  | r :: rs, s => (if r.matches s then r.apply s else ∅) ∪ Rule.applyPar rs s

end

/-- Minimum of two optional depths, treating `none` as unset (infinite). -/
def omin : Option Nat → Option Nat → Option Nat
  | none, b => b
  | some x, none => some x
  | some x, some y => some (min x y)

/-- Successor of an optional depth (`none` stays unset). -/
def osucc : Option Nat → Option Nat :=
  Option.map (· + 1)

/-- Order on optional depths, treating `none` as the largest element. -/
def oleB : Option Nat → Option Nat → Bool
  | _, none => true
  | none, some _ => false
  | some x, some y => decide (x ≤ y)

/-- Modelled from the spec: a Node of a Pathway, with its identifier and its
derived depth.  A node that is not (yet) connected to the root carries an
unset depth, written `none`. -/
structure Node where
  nid : Nat
  depth : Option Nat
deriving DecidableEq, Repr

/-- Modelled from the spec: an Edge of a Pathway, with a non-empty set of
start Node identifiers, a non-empty set of end Node identifiers and the
simple/multistep classification flag. -/
structure Edge where
  eid : Nat
  startIds : List Nat
  endIds : List Nat
  multistep : Bool
deriving DecidableEq, Repr

/-- Modelled from the spec: a Pathway is a set of Nodes and a set of Edges
together with its root Node identifier and its mode (manual when created
with root_node_only, predicted otherwise).  Structure resolution is
abstracted away: nodes are addressed by identifier. -/
structure Pathway where
  rootId : Nat
  manualMode : Bool
  nodes : List Node
  edges : List Edge
deriving DecidableEq, Repr

/-- The identifiers of the nodes of a pathway. -/
def Pathway.ids (p : Pathway) : List Nat :=
  p.nodes.map (·.nid)

/-- The arc relation induced by the edges: `a` is a start node and `b` an
end node of a common edge. -/
def Pathway.arcB (p : Pathway) (a b : Nat) : Bool :=
  p.edges.any (fun e => e.startIds.contains a && e.endIds.contains b)

/-- The stored depth of a node, unset for unknown identifiers. -/
def Pathway.depthOf (p : Pathway) (n : Nat) : Option Nat :=
  match p.nodes.find? (fun nd => nd.nid == n) with
  | some nd => nd.depth
  | none => none

/-- Directed paths of exactly `k` arcs from `a` to `b`, with all visited
nodes after the first taken from the node set. -/
def Pathway.pathLenB (p : Pathway) : Nat → Nat → Nat → Bool
  | 0, a, b => a == b
  | k+1, a, b => p.ids.any (fun c => p.arcB a c && p.pathLenB k c b)

/-- Arc chains: `chainB a l` holds when consecutive elements of `a :: l`
are all connected by arcs. -/
def Pathway.chainB (p : Pathway) : Nat → List Nat → Bool
  | _, [] => true
  | a, b :: l => p.arcB a b && p.chainB b l

/-- The last vertex of the walk `a :: l`. -/
def lastOf (a : Nat) (l : List Nat) : Nat :=
  l.getLast?.getD a

/-- Least `m < fuel` satisfying `f`, or `none`. -/
def findLeast (f : Nat → Bool) : Nat → Option Nat
  | 0 => none
  | n+1 =>
    match findLeast f n with
    | some m => some m
    | none => if f n then some n else none

/-- Length of the shortest directed path from `a` to `b` among lengths
below `fuel`, or `none`. -/
def Pathway.distW (p : Pathway) (fuel a b : Nat) : Option Nat :=
  findLeast (fun k => p.pathLenB k a b) fuel

/-- Decidable reachability: a directed path from `a` to `b` exists. -/
def Pathway.reachB (p : Pathway) (a b : Nat) : Bool :=
  (p.distW (p.ids.length + 1) a b).isSome

/-- Minimum of depth(start) + 1 over all in-neighbours of `n`. -/
def Pathway.inMin (p : Pathway) (n : Nat) : Option Nat :=
  ((p.ids.filter (fun a => p.arcB a n)).map (fun a => osucc (p.depthOf a))).foldr omin none

/-- Modelled from the spec: one pass of the forward depth relaxation
depth(end) = min(depth(end), depth(start) + 1) over all start nodes. -/
def Pathway.relaxDepths (p : Pathway) : Pathway :=
  { p with nodes := p.nodes.map (fun nd => { nd with depth := omin nd.depth (p.inMin nd.nid) }) }

/-- The relaxation pass applied `k` times (transitive propagation). -/
def Pathway.relaxN (p : Pathway) : Nat → Pathway
  | 0 => p
  | k+1 => (p.relaxN k).relaxDepths

/-- Modelled from the spec: the error taxonomy of the core. -/
inductive EPError where
  | validationError
  | invariantViolation
  | transientChannelError
  | predictionFailedError
deriving DecidableEq, Repr

/-- Insertion of an edge without any checking: end nodes that do not exist
yet are created with unset depth, and the edge is appended. -/
def Pathway.insertRaw (p : Pathway) (e : Edge) : Pathway :=
  { p with
    nodes := p.nodes ++ ((e.endIds.filter (fun t => !(p.ids.contains t))).dedup).map
      (fun t => { nid := t, depth := none }),
    edges := p.edges ++ [e] }

/-- Modelled from the spec: Pathway.add_edge.  Start nodes must exist and
both node sets must be non-empty (ValidationError otherwise); an edge that
would create a cycle or give the root an incoming edge is rejected with an
InvariantViolation; on success missing end nodes are created and depths are
recomputed by the forward relaxation applied transitively. -/
def Pathway.addEdge (p : Pathway) (e : Edge) : Except EPError Pathway :=
  if e.startIds.isEmpty || e.endIds.isEmpty
      || !(e.startIds.all (fun s => p.ids.contains s)) then
    .error .validationError
  else if e.endIds.contains p.rootId
      || e.endIds.any (fun t => e.startIds.any (fun s => p.reachB t s)) then
    .error .invariantViolation
  else
    .ok ((p.insertRaw e).relaxN (p.insertRaw e).ids.length)

/-- Modelled from the spec: Pathway.add_node adds a fresh, not yet connected
node; allowed in manual mode only, and the identifier must be new. -/
def Pathway.addNode (p : Pathway) (n : Nat) : Except EPError Pathway :=
  if !p.manualMode then .error .validationError
  else if p.ids.contains n then .error .validationError
  else .ok { p with nodes := p.nodes ++ [{ nid := n, depth := none }] }

/-- Edges are non-empty on both sides and mention only existing nodes. -/
def Pathway.Scoped (p : Pathway) : Prop :=
  ∀ e ∈ p.edges, e.startIds ≠ [] ∧ e.endIds ≠ [] ∧
    (∀ a ∈ e.startIds, a ∈ p.ids) ∧ (∀ b ∈ e.endIds, b ∈ p.ids)

/-- No directed cycle of any positive length. -/
def Pathway.Acyclic (p : Pathway) : Prop :=
  ∀ n k, p.pathLenB (k+1) n n = false

/-- The root exists, has depth 0, and has no incoming arc. -/
def Pathway.RootOk (p : Pathway) : Prop :=
  p.rootId ∈ p.ids ∧ p.depthOf p.rootId = some 0 ∧ ∀ a, p.arcB a p.rootId = false

/-- Every stored depth is the shortest-path distance from the root. -/
def Pathway.DepthOk (p : Pathway) : Prop :=
  ∀ n ∈ p.ids, p.depthOf n = p.distW (p.ids.length + 1) p.rootId n

/-- The maintained structural invariant of a pathway. -/
def Pathway.WF (p : Pathway) : Prop :=
  p.ids.Nodup ∧ p.Scoped ∧ p.Acyclic ∧ p.RootOk ∧ p.DepthOk

/-- Decidable counterpart of `Scoped`. -/
def Pathway.scopedB (p : Pathway) : Bool :=
  p.edges.all (fun e => !e.startIds.isEmpty && !e.endIds.isEmpty
    && e.startIds.all (fun a => p.ids.contains a)
    && e.endIds.all (fun b => p.ids.contains b))

/-- Decidable acyclicity: no cycle of length 1 up to the node count. -/
def Pathway.acyclicB (p : Pathway) : Bool :=
  p.ids.all (fun n => (List.range p.ids.length).all (fun k => !(p.pathLenB (k+1) n n)))

/-- Decidable counterpart of `RootOk` (incoming arcs checked over the node
set, which suffices for scoped pathways). -/
def Pathway.rootOkB (p : Pathway) : Bool :=
  p.ids.contains p.rootId && (p.depthOf p.rootId == some 0)
    && p.ids.all (fun a => !(p.arcB a p.rootId))

/-- Decidable counterpart of `DepthOk`. -/
def Pathway.depthOkB (p : Pathway) : Bool :=
  p.ids.all (fun n => p.depthOf n == p.distW (p.ids.length + 1) p.rootId n)

/-- Decidable wellformedness check used to validate merged snapshots. -/
def Pathway.wfB (p : Pathway) : Bool :=
  decide p.ids.Nodup && p.scopedB && p.acyclicB && p.rootOkB && p.depthOkB

/-- Identifier-keyed union: members of `new` whose key already occurs in
`old` are dropped, the others are appended; existing members are never
touched. -/
def mergeBy {α : Type} (key : α → Nat) (old new : List α) : List α :=
  old ++ new.filter (fun x => old.all (fun y => key y != key x))

/-- Modelled from the spec: the remote status carried by a job snapshot. -/
inductive RemoteStatus where
  | running
  | done
  | failed
deriving DecidableEq, Repr

/-- Modelled from the spec: a snapshot fetched from the remote job channel,
with stable Node and Edge identifiers. -/
structure JobSnapshot where
  status : RemoteStatus
  nodes : List Node
  edges : List Edge
deriving DecidableEq, Repr

/-- Modelled from the spec: merging a snapshot into a pathway is the
identifier-keyed union on nodes and on edges. -/
def Pathway.mergeSnapshot (p : Pathway) (s : JobSnapshot) : Pathway :=
  { p with
    nodes := mergeBy Node.nid p.nodes s.nodes,
    edges := mergeBy Edge.eid p.edges s.edges }

/-- Modelled from the spec: a merge is applied atomically and defensively;
a merged graph that would violate the structural invariant is rejected
whole with an InvariantViolation. -/
def Pathway.mergeValidated (p : Pathway) (s : JobSnapshot) : Except EPError Pathway :=
  if (p.mergeSnapshot s).wfB then .ok (p.mergeSnapshot s) else .error .invariantViolation

/-- Modelled from the spec: the state of a PredictionJob. -/
inductive JobStatus where
  | Pending
  | Running
  | Done
  | Failed
deriving DecidableEq, Repr

/-- Done and Failed are the terminal states. -/
def JobStatus.terminal : JobStatus → Bool
  | .Done => true
  | .Failed => true
  | _ => false

/-- Modelled from the spec: a PredictionJob with its status and owning
pathway. -/
structure PredictionJob where
  status : JobStatus
  pathway : Pathway
deriving DecidableEq, Repr

/-- The outcome of one interaction with the remote job channel. -/
inductive FetchResult where
  | ok (snap : JobSnapshot)
  | transientError
deriving DecidableEq, Repr

/-- The job state after a poll, together with the surfaced error, if any. -/
structure PollOutcome where
  job : PredictionJob
  err : Option EPError
deriving DecidableEq, Repr

/-- Modelled from the spec: the poll transition function.  A terminal job is
left untouched; a transport error changes nothing and is surfaced as
transient; a remote failed status makes the job terminally Failed without a
merge; running/done statuses merge the snapshot (atomically, validated) and
map to Running/Done. -/
def poll (j : PredictionJob) (fetch : FetchResult) : PollOutcome :=
  if j.status.terminal then { job := j, err := none }
  else
    match fetch with
    | .transientError => { job := j, err := some .transientChannelError }
    | .ok snap =>
      match snap.status with
      | .failed => { job := { j with status := .Failed }, err := some .predictionFailedError }
      | .running =>
        match j.pathway.mergeValidated snap with
        | .ok q => { job := { status := .Running, pathway := q }, err := none }
        | .error er => { job := j, err := some er }
      | .done =>
        match j.pathway.mergeValidated snap with
        | .ok q => { job := { status := .Done, pathway := q }, err := none }
        | .error er => { job := j, err := some er }

/-- Modelled from the spec: Pathway.create.  With root_node_only the pathway
is created in manual mode holding only the root node (depth 0) and no job;
otherwise the root-only pathway is handed to the prediction orchestrator,
returning a Pending PredictionJob that will populate it asynchronously. -/
def Pathway.create (rootNid : Nat) (root_node_only : Bool) : Pathway × Option PredictionJob :=
  let pw : Pathway :=
    { rootId := rootNid, manualMode := root_node_only,
      nodes := [{ nid := rootNid, depth := some 0 }], edges := [] }
  if root_node_only then (pw, none)
  else (pw, some { status := .Pending, pathway := pw })

/-- The pathway states reachable through the public construction surface:
creation, add_node, add_edge and validated snapshot merges. -/
inductive Reachable : Pathway → Prop where
  | created (rootNid : Nat) (root_node_only : Bool) :
      Reachable (Pathway.create rootNid root_node_only).1
  | addNode {p q : Pathway} {n : Nat} :
      Reachable p → p.addNode n = .ok q → Reachable q
  | addEdge {p q : Pathway} {e : Edge} :
      Reachable p → p.addEdge e = .ok q → Reachable q
  | merged {p q : Pathway} {s : JobSnapshot} :
      Reachable p → p.mergeValidated s = .ok q → Reachable q

/-- Modelled from the spec: the read-through object resolver cache (objects
abstracted to identifiers and values).  A transient fetch error leaves the
cache unchanged. -/
def resolve (cache : List (Nat × Nat)) (oid : Nat) (fetch : Except EPError Nat) :
    List (Nat × Nat) × Except EPError Nat :=
  match cache.find? (fun kv => kv.1 == oid) with
  | some kv => (cache, .ok kv.2)
  | none =>
    match fetch with
    | .error e => (cache, .error e)
    | .ok v => (cache ++ [(oid, v)], .ok v)

/-- Stored server state observable by persistence: the identifiers of the
stored Compounds, Reactions and Nodes. -/
structure Store where
  compounds : List Nat
  reactions : List Nat
  nodes : List Nat
deriving DecidableEq, Repr

/-- Modelled from the spec: a rule bound to a trained Relative Reasoning
model, with its identifier, its priority order in the model and its score
function. -/
structure RRRule where
  ruleId : Nat
  priority : Nat
  rule : Rule
  score : Structure → Int

/-- Modelled from the spec: a Setting selects the rules of a trained model. -/
structure Setting where
  rules : List RRRule

/-- Ranking key of a classification result: descending score, ties broken by
the model's priority order, then by identifier. -/
def rrKey (s : Structure) (a : RRRule) : Lex (Int × Lex (Nat × Nat)) :=
  toLex (-(a.score s), toLex (a.priority, a.ruleId))

/-- Ranking order on classification results. -/
def rrLe (s : Structure) (a b : RRRule) : Prop :=
  rrKey s a ≤ rrKey s b

instance (s : Structure) : DecidableRel (rrLe s) :=
  fun a b => inferInstanceAs (Decidable (rrKey s a ≤ rrKey s b))

/-- Modelled from the spec: classify keeps the rules of the setting that
match the structure and orders them by descending score with the
deterministic tie-break. -/
def classify (st : Setting) (s : Structure) : List RRRule :=
  List.insertionSort (rrLe s) (st.rules.filter (fun r => r.rule.matches s))

/-- Classification seen together with the stored state: it persists
nothing. -/
def classifyWithStore (st : Setting) (s : Structure) (db : Store) : Store × List RRRule :=
  (db, classify st s)

/-- A node has at least one incoming edge. -/
def Pathway.hasIncomingB (p : Pathway) (n : Nat) : Bool :=
  p.edges.any (fun e => e.endIds.contains n)

/-- The shortest directed path from `a` to `b` has length exactly `m`. -/
def Pathway.ShortestLen (p : Pathway) (a b m : Nat) : Prop :=
  p.pathLenB m a b = true ∧ ∀ k < m, p.pathLenB k a b = false

/-- The invariant asserted by the specification for every Pathway: acyclic;
exactly one node without incoming edge, namely the root, at depth 0; every
non-root node has an incoming edge; every depth is the shortest-path length
from the root. -/
def Pathway.ClaimInvariant (p : Pathway) : Prop :=
  p.Acyclic ∧
  (∃! n, n ∈ p.ids ∧ p.hasIncomingB n = false) ∧
  (∀ n ∈ p.ids, p.hasIncomingB n = false → n = p.rootId ∧ p.depthOf n = some 0) ∧
  (∀ n ∈ p.ids, n ≠ p.rootId → p.hasIncomingB n = true) ∧
  (∀ n ∈ p.ids, ∀ m, p.depthOf n = some m ↔ p.ShortestLen p.rootId n m)

/-- The pathway obtained by creating a manual pathway with root 0 and then
adding the not yet connected node 1. -/
def pDangling : Pathway :=
  { rootId := 0, manualMode := true,
    nodes := [{ nid := 0, depth := some 0 }, { nid := 1, depth := none }],
    edges := [] }

/-- Every finite stored depth is witnessed by a directed path of that length
from the root (the upper-bound invariant of the relaxation). -/
def Pathway.UB (p : Pathway) : Prop :=
  ∀ n m, p.depthOf n = some m → p.pathLenB m p.rootId n = true

/-- The claim-facing ranking of classification results: higher score first,
ties broken by the model's priority order, then by rule identifier. -/
def rrRank (s : Structure) (a b : RRRule) : Prop :=
  b.score s < a.score s ∨
    (a.score s = b.score s ∧
      (a.priority < b.priority ∨ (a.priority = b.priority ∧ a.ruleId ≤ b.ruleId)))

instance (s : Structure) : IsTotal RRRule (rrLe s) :=
  ⟨fun a b => le_total (rrKey s a) (rrKey s b)⟩

instance (s : Structure) : IsTrans RRRule (rrLe s) :=
  ⟨fun _ _ _ h1 h2 => le_trans h1 h2⟩

/-- A concrete running prediction job used as a witness. -/
def jWitness : PredictionJob :=
  { status := .Running, pathway := (Pathway.create 0 false).1 }

/-- A concrete failed remote snapshot used as a witness. -/
def snapWitness : JobSnapshot :=
  { status := .failed, nodes := [], edges := [] }

/-- A concrete rule bound to a model, used as a classification witness. -/
def rrWitness : RRRule :=
  { ruleId := 1, priority := 0,
    rule := Rule.simple (fun _ => [{⟨5⟩}]), score := fun _ => 3 }

/-- A concrete one-rule setting used as a classification witness. -/
def stWitness : Setting :=
  { rules := [rrWitness] }

/-- A concrete edge used to exercise add_edge. -/
def eWitness : Edge :=
  { eid := 10, startIds := [0], endIds := [1], multistep := false }

/-- The pathway produced by adding `eWitness` to a fresh manual pathway
rooted at 0. -/
def qWitness : Pathway :=
  { rootId := 0, manualMode := true,
    nodes := [{ nid := 0, depth := some 0 }, { nid := 1, depth := some 1 }],
    edges := [eWitness] }

theorem applySeq_emptyset (l : List Rule) : Rule.applySeq l ∅ = ∅ := by
  induction l with
  | nil => simp [Rule.applySeq]
  | cons r rs ih => simp [Rule.applySeq, ih]

theorem apply_eq_empty_of_not_matches (r : Rule) (s : Structure)
    (h : r.matches s = false) : r.apply s = ∅ := by
  cases r with
  | simple sites =>
    have hempty : (sites s).isEmpty = true := by
      simpa [Rule.matches] using h
    have : sites s = [] := List.isEmpty_iff.mp hempty
    simp [Rule.apply, this, unionList]
  | seqComp r rs =>
    have hr : r.matches s = false := by simpa [Rule.matches] using h
    simp [Rule.apply, Rule.applySeq, hr, applySeq_emptyset]
  | parComp r rs =>
    have hr : r.matches s = false ∧ Rule.anyMatches rs s = false := by
      simpa [Rule.matches] using h
    have hall : ∀ l, Rule.anyMatches l s = false → Rule.applyPar l s = ∅ := by
      intro l
      induction l with
      | nil => intro _; simp [Rule.applyPar]
      | cons a t ih =>
        intro hl
        rcases Bool.or_eq_false_iff.mp (by simpa [Rule.anyMatches] using hl) with ⟨ha, ht⟩
        simp [Rule.applyPar, ha, ih ht]
    simp [Rule.apply, Rule.applyPar, hr.1, hall rs hr.2]

theorem applyPar_matching_union (r : Rule) (s : Structure) :
    (if r.matches s then r.apply s else ∅) = r.apply s := by
  by_cases h : r.matches s
  · simp [h]
  · simp [h, apply_eq_empty_of_not_matches r s (by simpa using h)]

theorem applySeq_eq_foldl (l : List Rule) (W : Finset Structure) :
    Rule.applySeq l W =
      l.foldl (fun W r => W.biUnion (fun x => if r.matches x then r.apply x else ∅)) W := by
  induction l generalizing W with
  | nil => simp [Rule.applySeq]
  | cons r rs ih => simp [Rule.applySeq, List.foldl_cons, ih]

/-- C3: a two-stage SequentialCompositeRule applies the first stage to the
input and pipes each matched intermediate through the second stage (members
the second stage does not match are dropped); it matches exactly when its
first stage matches, it returns the empty set when the first stage does not
match, and in general the pipeline is the left fold of the per-stage
matched-union step starting from the singleton working set. -/
theorem c3_sequential_law (r1 r2 : Rule) (s : Structure) :
    (Rule.seqComp r1 [r2]).matches s = r1.matches s ∧
    (Rule.seqComp r1 [r2]).apply s =
      (r1.apply s).biUnion (fun x => if r2.matches x then r2.apply x else ∅) ∧
    (r1.matches s = false → (Rule.seqComp r1 [r2]).apply s = ∅) ∧
    (∀ (r : Rule) (rs : List Rule),
      (Rule.seqComp r rs).apply s =
        (r :: rs).foldl
          (fun W r => W.biUnion (fun x => if r.matches x then r.apply x else ∅)) {s}) := by
  refine ⟨rfl, ?_, ?_, ?_⟩
  · by_cases h : r1.matches s
    · simp [Rule.apply, Rule.applySeq, h]
    · have h' : r1.matches s = false := by simpa using h
      have h1 : r1.apply s = ∅ := apply_eq_empty_of_not_matches r1 s h'
      simp [Rule.apply, Rule.applySeq, h', h1]
  · intro h
    have h1 : r1.apply s = ∅ := apply_eq_empty_of_not_matches r1 s h
    simp [Rule.apply, Rule.applySeq, h, h1]
  · intro r rs
    simp [Rule.apply, applySeq_eq_foldl]

/-- C3 witness: the law evaluated on a concrete two-stage pipeline. -/
theorem c3_sequential_law_witness :
    (Rule.seqComp (Rule.simple (fun x => [{⟨x.sid + 1⟩}])) [Rule.simple (fun x => [{⟨x.sid + 2⟩}])]).apply ⟨0⟩ =
      ((Rule.simple (fun x => [{⟨x.sid + 1⟩}])).apply ⟨0⟩).biUnion
        (fun x => if (Rule.simple (fun x => [{⟨x.sid + 2⟩}])).matches x
          then (Rule.simple (fun x => [{⟨x.sid + 2⟩}])).apply x else ∅) :=
  (c3_sequential_law (Rule.simple (fun x => [{⟨x.sid + 1⟩}]))
    (Rule.simple (fun x => [{⟨x.sid + 2⟩}])) ⟨0⟩).2.1

/-- C4: a two-stage ParallelCompositeRule matches when either stage matches
and applies to the union of the two stages' results; in general an n-stage
parallel rule matches via the disjunction over its stages. -/
theorem c4_parallel_law (r1 r2 : Rule) (s : Structure) :
    (Rule.parComp r1 [r2]).matches s = (r1.matches s || r2.matches s) ∧
    (Rule.parComp r1 [r2]).apply s = r1.apply s ∪ r2.apply s ∧
    (∀ (r : Rule) (rs : List Rule),
      (Rule.parComp r rs).matches s = Rule.anyMatches (r :: rs) s) := by
  refine ⟨?_, ?_, ?_⟩
  · simp [Rule.matches, Rule.anyMatches]
  · simp [Rule.apply, Rule.applyPar, applyPar_matching_union]
  · intro r rs
    simp [Rule.matches, Rule.anyMatches]

/-- C9: applying any Rule variant to a structure it does not match yields
the empty set of products — a defined outcome, not an error (the operation
is total). -/
theorem c9_apply_nonmatch_empty (r : Rule) (s : Structure)
    (h : r.matches s = false) : r.apply s = ∅ :=
  apply_eq_empty_of_not_matches r s h

theorem oleB_refl (a : Option Nat) : oleB a a = true := by
  cases a <;> simp [oleB]

theorem oleB_none_right (a : Option Nat) : oleB a none = true := by
  cases a <;> simp [oleB]

theorem oleB_some_iff {x y : Nat} : oleB (some x) (some y) = true ↔ x ≤ y := by
  simp [oleB]

theorem oleB_none_left_iff {b : Option Nat} : oleB none b = true ↔ b = none := by
  cases b <;> simp [oleB]

theorem oleB_trans {a b c : Option Nat} (h1 : oleB a b = true) (h2 : oleB b c = true) :
    oleB a c = true := by
  cases a <;> cases b <;> cases c <;> simp_all [oleB]
  omega

theorem oleB_antisymm {a b : Option Nat} (h1 : oleB a b = true) (h2 : oleB b a = true) :
    a = b := by
  cases a <;> cases b <;> simp_all [oleB]
  omega

theorem omin_choice (a b : Option Nat) : omin a b = a ∨ omin a b = b := by
  cases a with
  | none => right; simp [omin]
  | some x =>
    cases b with
    | none => left; simp [omin]
    | some y =>
      rcases Nat.le_total x y with h | h
      · left; simp [omin, Nat.min_eq_left h]
      · right; simp [omin, Nat.min_eq_right h]

theorem oleB_omin_left (a b : Option Nat) : oleB (omin a b) a = true := by
  cases a <;> cases b <;> simp [omin, oleB, oleB_refl, oleB_none_right]

theorem oleB_omin_right (a b : Option Nat) : oleB (omin a b) b = true := by
  cases a <;> cases b <;> simp [omin, oleB, oleB_refl, oleB_none_right]

theorem oleB_osucc_mono {a b : Option Nat} (h : oleB a b = true) :
    oleB (osucc a) (osucc b) = true := by
  cases a <;> cases b <;> simp_all [osucc, oleB]

theorem osucc_some (m : Nat) : osucc (some m) = some (m + 1) := rfl

theorem foldr_omin_le_mem {l : List (Option Nat)} {x : Option Nat} (hx : x ∈ l) :
    oleB (l.foldr omin none) x = true := by
  induction l with
  | nil => cases hx
  | cons y t ih =>
    rcases List.mem_cons.mp hx with rfl | hx'
    · exact oleB_omin_left _ _
    · exact oleB_trans (oleB_omin_right _ _) (ih hx')

theorem foldr_omin_attained (l : List (Option Nat)) :
    l.foldr omin none = none ∨ ∃ x ∈ l, l.foldr omin none = x := by
  induction l with
  | nil => left; rfl
  | cons y t ih =>
    rcases omin_choice y (t.foldr omin none) with h | h
    · right; exact ⟨y, List.mem_cons_self _ _, h⟩
    · rcases ih with h' | ⟨x, hx, h'⟩
      · left; rw [List.foldr_cons, h, h']
      · right; exact ⟨x, List.mem_cons_of_mem _ hx, by rw [List.foldr_cons, h, h']⟩

theorem findLeast_none_all {f : Nat → Bool} :
    ∀ {fuel : Nat}, findLeast f fuel = none → ∀ j < fuel, f j = false := by
  intro fuel
  induction fuel with
  | zero => intro _ j hj; omega
  | succ n ih =>
    intro h j hj
    rw [findLeast] at h
    cases hfl : findLeast f n with
    | some m' => rw [hfl] at h; cases h
    | none =>
      rw [hfl] at h
      by_cases hf : f n = true
      · rw [if_pos hf] at h; cases h
      · rcases Nat.lt_succ_iff_lt_or_eq.mp hj with hj' | rfl
        · exact ih hfl j hj'
        · simpa using hf

theorem findLeast_some {f : Nat → Bool} :
    ∀ {fuel m : Nat}, findLeast f fuel = some m →
      f m = true ∧ m < fuel ∧ ∀ j < m, f j = false := by
  intro fuel
  induction fuel with
  | zero => intro m h; simp [findLeast] at h
  | succ n ih =>
    intro m h
    rw [findLeast] at h
    cases hfl : findLeast f n with
    | some m' =>
      rw [hfl] at h
      cases h
      rcases ih hfl with ⟨h1, h2, h3⟩
      exact ⟨h1, Nat.lt_succ_of_lt h2, h3⟩
    | none =>
      rw [hfl] at h
      by_cases hf : f n = true
      · rw [if_pos hf] at h
        cases h
        exact ⟨hf, Nat.lt_succ_self _, fun j hj => findLeast_none_all hfl j hj⟩
      · rw [if_neg hf] at h; cases h

theorem findLeast_found {f : Nat → Bool} :
    ∀ (fuel : Nat) {j : Nat}, f j = true → j < fuel → ∃ m ≤ j, findLeast f fuel = some m := by
  intro fuel
  induction fuel with
  | zero => intro j _ hj; omega
  | succ n ih =>
    intro j hf hj
    rw [findLeast]
    cases hfl : findLeast f n with
    | some m' =>
      rcases findLeast_some hfl with ⟨h1, h2, h3⟩
      refine ⟨m', ?_, rfl⟩
      by_contra hcon
      exact absurd hf (by simpa using h3 j (by omega))
    | none =>
      rcases Nat.lt_succ_iff_lt_or_eq.mp hj with hj' | rfl
      · exact absurd hf (by simpa using findLeast_none_all hfl j hj')
      · exact ⟨j, le_refl _, by rw [if_pos hf]⟩

theorem arcB_iff {p : Pathway} {a b : Nat} :
    p.arcB a b = true ↔ ∃ e ∈ p.edges, a ∈ e.startIds ∧ b ∈ e.endIds := by
  simp [Pathway.arcB, List.any_eq_true]

theorem arcB_start_mem {p : Pathway} (hs : p.Scoped) {a b : Nat}
    (h : p.arcB a b = true) : a ∈ p.ids := by
  rcases arcB_iff.mp h with ⟨e, he, ha, _⟩
  exact (hs e he).2.2.1 a ha

theorem arcB_end_mem {p : Pathway} (hs : p.Scoped) {a b : Nat}
    (h : p.arcB a b = true) : b ∈ p.ids := by
  rcases arcB_iff.mp h with ⟨e, he, _, hb⟩
  exact (hs e he).2.2.2 b hb

theorem pathLenB_zero_iff {p : Pathway} {a b : Nat} :
    p.pathLenB 0 a b = true ↔ a = b := by
  simp [Pathway.pathLenB]

theorem pathLenB_self (p : Pathway) (a : Nat) : p.pathLenB 0 a a = true :=
  pathLenB_zero_iff.mpr rfl

theorem pathLenB_succ_iff {p : Pathway} {k a b : Nat} :
    p.pathLenB (k+1) a b = true ↔
      ∃ c ∈ p.ids, p.arcB a c = true ∧ p.pathLenB k c b = true := by
  simp [Pathway.pathLenB, List.any_eq_true]

theorem pathLenB_end_mem {p : Pathway} :
    ∀ {k a b : Nat}, p.pathLenB (k+1) a b = true → b ∈ p.ids := by
  intro k
  induction k with
  | zero =>
    intro a b h
    rcases pathLenB_succ_iff.mp h with ⟨c, hc, _, h0⟩
    rwa [pathLenB_zero_iff.mp h0] at hc
  | succ n ih =>
    intro a b h
    rcases pathLenB_succ_iff.mp h with ⟨c, _, _, h'⟩
    exact ih h'

theorem pathLenB_snoc {p : Pathway} (hs : p.Scoped) :
    ∀ {k a b c : Nat}, p.pathLenB k a b = true → p.arcB b c = true →
      p.pathLenB (k+1) a c = true := by
  intro k
  induction k with
  | zero =>
    intro a b c h harc
    rw [pathLenB_zero_iff.mp h]
    exact pathLenB_succ_iff.mpr ⟨c, arcB_end_mem hs harc, harc, pathLenB_self p c⟩
  | succ n ih =>
    intro a b c h harc
    rcases pathLenB_succ_iff.mp h with ⟨d, hd, had, hdb⟩
    exact pathLenB_succ_iff.mpr ⟨d, hd, had, ih hdb harc⟩

theorem pathLenB_snoc_decomp {p : Pathway} :
    ∀ {k a b : Nat}, p.pathLenB (k+1) a b = true →
      ∃ c, p.pathLenB k a c = true ∧ p.arcB c b = true := by
  intro k
  induction k with
  | zero =>
    intro a b h
    rcases pathLenB_succ_iff.mp h with ⟨c, _, hac, h0⟩
    exact ⟨a, pathLenB_self p a, by rwa [pathLenB_zero_iff.mp h0] at hac⟩
  | succ n ih =>
    intro a b h
    rcases pathLenB_succ_iff.mp h with ⟨c, hc, hac, h'⟩
    rcases ih h' with ⟨d, hd1, hd2⟩
    exact ⟨d, pathLenB_succ_iff.mpr ⟨c, hc, hac, hd1⟩, hd2⟩

theorem pathLenB_concat {p : Pathway} :
    ∀ {k1 k2 a b c : Nat}, p.pathLenB k1 a b = true → p.pathLenB k2 b c = true →
      p.pathLenB (k1 + k2) a c = true := by
  intro k1
  induction k1 with
  | zero =>
    intro k2 a b c h1 h2
    rw [pathLenB_zero_iff.mp h1]
    simpa using h2
  | succ n ih =>
    intro k2 a b c h1 h2
    rcases pathLenB_succ_iff.mp h1 with ⟨d, hd, had, hdb⟩
    have : p.pathLenB (n + k2) d c = true := ih hdb h2
    have hgoal : p.pathLenB (n + k2 + 1) a c = true :=
      pathLenB_succ_iff.mpr ⟨d, hd, had, this⟩
    have harith : n + 1 + k2 = n + k2 + 1 := by omega
    rwa [harith]

theorem chainB_cons_iff {p : Pathway} {a b : Nat} {l : List Nat} :
    p.chainB a (b :: l) = true ↔ p.arcB a b = true ∧ p.chainB b l = true := by
  simp [Pathway.chainB]

theorem lastOf_nil (a : Nat) : lastOf a [] = a := rfl

theorem getLastQ_cons : ∀ (t : List Nat) (c : Nat), (c :: t).getLast? = some (lastOf c t) := by
  intro t
  induction t with
  | nil => intro c; simp [lastOf]
  | cons d t' ih =>
    intro c
    rw [List.getLast?_cons_cons, ih d]
    simp [lastOf, ih d]

theorem lastOf_cons (a b : Nat) (l : List Nat) : lastOf a (b :: l) = lastOf b l := by
  cases l with
  | nil => simp [lastOf]
  | cons c t => simp [lastOf, List.getLast?_cons_cons, getLastQ_cons]

theorem chainB_append (p : Pathway) :
    ∀ (u : List Nat) (a : Nat) (v : List Nat),
      p.chainB a (u ++ v) = (p.chainB a u && p.chainB (lastOf a u) v) := by
  intro u
  induction u with
  | nil => intro a v; simp [Pathway.chainB, lastOf_nil]
  | cons b u' ih =>
    intro a v
    simp only [List.cons_append, Pathway.chainB, List.append_eq, ih, lastOf_cons, Bool.and_assoc]

theorem lastOf_append (a : Nat) (u v : List Nat) :
    lastOf a (u ++ v) = lastOf (lastOf a u) v := by
  induction u generalizing a with
  | nil => simp [lastOf_nil]
  | cons b u' ih => simp [List.cons_append, lastOf_cons, ih]

theorem lastOf_append_singleton (a x : Nat) (u : List Nat) :
    lastOf a (u ++ [x]) = x := by
  rw [lastOf_append]
  simp [lastOf]

theorem lastOf_singleton (a x : Nat) : lastOf a [x] = x := by
  simp [lastOf]

theorem pathLenB_to_chain {p : Pathway} :
    ∀ {k a b : Nat}, p.pathLenB k a b = true →
      ∃ l, p.chainB a l = true ∧ l.length = k ∧ lastOf a l = b ∧ ∀ c ∈ l, c ∈ p.ids := by
  intro k
  induction k with
  | zero =>
    intro a b h
    exact ⟨[], rfl, rfl, by rw [lastOf_nil, pathLenB_zero_iff.mp h], by simp⟩
  | succ n ih =>
    intro a b h
    rcases pathLenB_succ_iff.mp h with ⟨c, hc, hac, h'⟩
    rcases ih h' with ⟨l', hchain, hlen, hlast, hmem⟩
    refine ⟨c :: l', ?_, by simp [hlen], by rw [lastOf_cons]; exact hlast, ?_⟩
    · exact chainB_cons_iff.mpr ⟨hac, hchain⟩
    · intro d hd
      rcases List.mem_cons.mp hd with rfl | hd'
      · exact hc
      · exact hmem d hd'

theorem chain_to_pathLenB {p : Pathway} :
    ∀ (l : List Nat) (a : Nat), p.chainB a l = true → (∀ c ∈ l, c ∈ p.ids) →
      p.pathLenB l.length a (lastOf a l) = true := by
  intro l
  induction l with
  | nil => intro a _ _; simpa [lastOf_nil] using pathLenB_self p a
  | cons b l' ih =>
    intro a hchain hmem
    rcases chainB_cons_iff.mp hchain with ⟨hab, hch'⟩
    have hb : b ∈ p.ids := hmem b (List.mem_cons_self _ _)
    have := ih b hch' (fun c hc => hmem c (List.mem_cons_of_mem _ hc))
    rw [lastOf_cons]
    exact pathLenB_succ_iff.mpr ⟨b, hb, hab, this⟩

theorem exists_dup_decomp :
    ∀ (l : List Nat), ¬ l.Nodup → ∃ u x v w, l = u ++ x :: v ++ x :: w := by
  intro l
  induction l with
  | nil => intro h; exact absurd List.nodup_nil h
  | cons y t ih =>
    intro h
    by_cases hy : y ∈ t
    · rcases List.append_of_mem hy with ⟨s, r, rfl⟩
      exact ⟨[], y, s, r, rfl⟩
    · have hnt : ¬ t.Nodup := fun hnd => h (List.nodup_cons.mpr ⟨hy, hnd⟩)
      rcases ih hnt with ⟨u, x, v, w, rfl⟩
      exact ⟨y :: u, x, v, w, rfl⟩

theorem chain_compress_aux {p : Pathway} :
    ∀ (N : Nat) (l : List Nat) (a : Nat), l.length ≤ N → p.chainB a l = true →
      ∃ l', p.chainB a l' = true ∧ lastOf a l' = lastOf a l ∧
        l'.length ≤ l.length ∧ (a :: l').Nodup ∧ ∀ c ∈ l', c ∈ l := by
  intro N
  induction N with
  | zero =>
    intro l a hlen _
    have : l = [] := List.length_eq_zero.mp (Nat.le_zero.mp hlen)
    subst this
    exact ⟨[], rfl, rfl, le_refl _, List.nodup_singleton a, by simp⟩
  | succ N ih =>
    intro l a hlen hchain
    by_cases hnd : (a :: l).Nodup
    · exact ⟨l, hchain, rfl, le_refl _, hnd, fun c hc => hc⟩
    · rcases exists_dup_decomp _ hnd with ⟨u, x, v, w, hdec⟩
      cases u with
      | nil =>
        have hax : a = x := by simpa using congrArg (fun l => l.headI) hdec
        have hl : l = v ++ x :: w := by simpa using congrArg List.tail hdec
        subst hax
        have hl' : l = (v ++ [a]) ++ w := by simpa using hl
        rw [hl', chainB_append] at hchain
        rcases Bool.and_eq_true_iff.mp hchain with ⟨hch1, hch2⟩
        rw [lastOf_append_singleton] at hch2
        have hwlen : w.length ≤ N := by
          have := congrArg List.length hl'
          simp at this
          omega
        rcases ih w a hwlen hch2 with ⟨l'', hc'', hlast'', hlen'', hnd'', hmem''⟩
        refine ⟨l'', hc'', ?_, ?_, hnd'', ?_⟩
        · rw [hlast'', hl', lastOf_append, lastOf_append_singleton]
        · have := congrArg List.length hl'
          simp at this
          omega
        · intro c hc
          rw [hl']
          exact List.mem_append.mpr (Or.inr (hmem'' c hc))
      | cons y u' =>
        have hl : l = u' ++ x :: v ++ x :: w := by simpa using congrArg List.tail hdec
        have hl' : l = (u' ++ [x]) ++ ((v ++ [x]) ++ w) := by simp [hl]
        have hsplit1 : p.chainB a ((u' ++ [x]) ++ ((v ++ [x]) ++ w)) = true := by
          rw [← hl']; exact hchain
        rw [chainB_append] at hsplit1
        rcases Bool.and_eq_true_iff.mp hsplit1 with ⟨hch1, hrest⟩
        have hx1 : lastOf a (u' ++ [x]) = x := lastOf_append_singleton a x u'
        rw [hx1, chainB_append] at hrest
        rcases Bool.and_eq_true_iff.mp hrest with ⟨_, hch3⟩
        have hx2 : lastOf x (v ++ [x]) = x := lastOf_append_singleton x x v
        rw [hx2] at hch3
        have hchain2 : p.chainB a ((u' ++ [x]) ++ w) = true := by
          rw [chainB_append, hx1]
          exact Bool.and_eq_true_iff.mpr ⟨hch1, hch3⟩
        have hlenl : l.length = u'.length + 1 + (v.length + 1 + w.length) := by
          rw [hl']; simp; omega
        have hlen2 : ((u' ++ [x]) ++ w).length ≤ N := by
          simp
          omega
        rcases ih _ a hlen2 hchain2 with ⟨l'', hc'', hlast'', hlen'', hnd'', hmem''⟩
        refine ⟨l'', hc'', ?_, ?_, hnd'', ?_⟩
        · rw [hlast'', hl']
          simp only [lastOf_append, lastOf_singleton, List.append_assoc]
        · have h2 : ((u' ++ [x]) ++ w).length = u'.length + 1 + w.length := by
            simp
            omega
          omega
        · intro c hc
          have hmem2 := hmem'' c hc
          rw [hl]
          simp only [List.mem_append, List.mem_cons, List.mem_singleton] at hmem2 ⊢
          tauto

theorem pathLenB_compress {p : Pathway} {k a b : Nat} (h : p.pathLenB k a b = true) :
    ∃ k', k' ≤ k ∧ k' ≤ p.ids.length ∧ p.pathLenB k' a b = true := by
  rcases pathLenB_to_chain h with ⟨l, hchain, hlen, hlast, hmem⟩
  rcases chain_compress_aux l.length l a (le_refl _) hchain with
    ⟨l', hc', hlast', hlen', hnd', hmem'⟩
  have hsub : ∀ c ∈ l', c ∈ p.ids := fun c hc => hmem c (hmem' c hc)
  have hpath := chain_to_pathLenB l' a hc' hsub
  rw [hlast', hlast] at hpath
  have hnodup : l'.Nodup := (List.nodup_cons.mp hnd').2
  have hlength : l'.length ≤ p.ids.length :=
    (List.Nodup.subperm hnodup (fun c hc => hsub c hc)).length_le
  exact ⟨l'.length, by omega, hlength, hpath⟩

theorem pathLenB_compress_mem {p : Pathway} {k a b : Nat}
    (h : p.pathLenB k a b = true) (ha : a ∈ p.ids) :
    ∃ k', k' ≤ k ∧ k' + 1 ≤ p.ids.length ∧ p.pathLenB k' a b = true := by
  rcases pathLenB_to_chain h with ⟨l, hchain, hlen, hlast, hmem⟩
  rcases chain_compress_aux l.length l a (le_refl _) hchain with
    ⟨l', hc', hlast', hlen', hnd', hmem'⟩
  have hsub : ∀ c ∈ l', c ∈ p.ids := fun c hc => hmem c (hmem' c hc)
  have hpath := chain_to_pathLenB l' a hc' hsub
  rw [hlast', hlast] at hpath
  have hsub' : ∀ c ∈ a :: l', c ∈ p.ids := by
    intro c hc
    rcases List.mem_cons.mp hc with rfl | hc'
    · exact ha
    · exact hsub c hc'
  have hlength : l'.length + 1 ≤ p.ids.length := by
    have := (List.Nodup.subperm hnd' (fun c hc => hsub' c hc)).length_le
    simpa using this
  exact ⟨l'.length, by omega, hlength, hpath⟩

/-- findLeast specialised to distW: a path of length j below the fuel bound
yields a distance of at most j. -/
theorem distW_found_le {p : Pathway} (fuel : Nat) {a b j : Nat}
    (h : p.pathLenB j a b = true) (hj : j < fuel) :
    ∃ m ≤ j, p.distW fuel a b = some m := by
  show ∃ m ≤ j, findLeast (fun k => p.pathLenB k a b) fuel = some m
  exact findLeast_found fuel h hj

/-- The generic shortest-path characterization of distW under sufficient
fuel: a value m is returned exactly when the shortest path has length m. -/
theorem distW_some_iff {p : Pathway} {fuel a b m : Nat}
    (hfuel : p.ids.length + 1 ≤ fuel) :
    p.distW fuel a b = some m ↔ p.ShortestLen a b m := by
  constructor
  · intro h
    rcases findLeast_some h with ⟨h1, _, h3⟩
    exact ⟨h1, fun k hk => h3 k hk⟩
  · rintro ⟨hpath, hmin⟩
    have hm : m ≤ p.ids.length := by
      rcases pathLenB_compress hpath with ⟨k', hk1, hk2, hp'⟩
      by_contra hcon
      have hlt : k' < m := by omega
      rw [hmin k' hlt] at hp'
      cases hp'
    rcases distW_found_le fuel hpath (by omega) with ⟨m', hm', hfl⟩
    rcases findLeast_some hfl with ⟨h1', _, _⟩
    have hne : ¬ m' < m := by
      intro hlt
      rw [hmin m' hlt] at h1'
      cases h1'
    have heq : m' = m := by omega
    rwa [heq] at hfl

theorem distW_none_iff {p : Pathway} {fuel a b : Nat}
    (hfuel : p.ids.length + 1 ≤ fuel) :
    p.distW fuel a b = none ↔ ∀ k, p.pathLenB k a b = false := by
  constructor
  · intro h k
    cases hb : p.pathLenB k a b with
    | false => rfl
    | true =>
      rcases pathLenB_compress hb with ⟨k', _, hk2, hp'⟩
      have := findLeast_none_all h k' (by omega)
      rw [this] at hp'
      cases hp'
  · intro h
    cases hd : p.distW fuel a b with
    | none => rfl
    | some m =>
      rcases findLeast_some hd with ⟨h1, _, _⟩
      rw [h m] at h1
      cases h1

theorem distW_found {p : Pathway} {fuel a b k : Nat}
    (hfuel : p.ids.length + 1 ≤ fuel) (h : p.pathLenB k a b = true) :
    ∃ m ≤ k, p.distW fuel a b = some m := by
  rcases pathLenB_compress h with ⟨k', h1, h2, hp⟩
  rcases distW_found_le fuel hp (by omega) with ⟨m, hm, hfl⟩
  exact ⟨m, by omega, hfl⟩

theorem distW_self {p : Pathway} {a fuel : Nat} (h : 1 ≤ fuel) :
    p.distW fuel a a = some 0 := by
  rcases distW_found_le fuel (pathLenB_self p a) (by omega) with ⟨m, hm, hfl⟩
  have hm0 : m = 0 := Nat.le_zero.mp hm
  rwa [hm0] at hfl

theorem acyclic_of_acyclicB {p : Pathway} (hs : p.Scoped) (h : p.acyclicB = true) :
    p.Acyclic := by
  intro n k
  cases hb : p.pathLenB (k+1) n n with
  | false => rfl
  | true =>
    exfalso
    rcases pathLenB_succ_iff.mp hb with ⟨c, hc, hnc, hpath⟩
    have hn : n ∈ p.ids := arcB_start_mem hs hnc
    rcases pathLenB_compress_mem hpath hc with ⟨k', hk1, hk2, hp'⟩
    have hcyc' : p.pathLenB (k'+1) n n = true := pathLenB_succ_iff.mpr ⟨c, hc, hnc, hp'⟩
    simp only [Pathway.acyclicB, List.all_eq_true, Bool.not_eq_true'] at h
    have := h n hn k' (List.mem_range.mpr (by omega))
    rw [this] at hcyc'
    cases hcyc'

theorem find?_map_nid (f : Node → Node) (hf : ∀ nd, (f nd).nid = nd.nid) :
    ∀ (l : List Node) (n : Nat),
      (l.map f).find? (fun nd => nd.nid == n) =
        (l.find? (fun nd => nd.nid == n)).map f := by
  intro l
  induction l with
  | nil => intro n; rfl
  | cons nd t ih =>
    intro n
    by_cases h : nd.nid == n
    · have h' : ((f nd).nid == n) = true := by rw [hf nd]; exact h
      simp [List.find?_cons, h, h']
    · have hb : (nd.nid == n) = false := by simpa using h
      have h' : ((f nd).nid == n) = false := by rw [hf nd]; exact hb
      simp [List.find?_cons, hb, h', ih n]

theorem mem_ids_find? {p : Pathway} {n : Nat} (h : n ∈ p.ids) :
    ∃ nd, p.nodes.find? (fun nd => nd.nid == n) = some nd ∧ nd.nid = n := by
  rcases List.mem_map.mp h with ⟨nd0, hnd0, hid⟩
  have hsome : (p.nodes.find? (fun nd => nd.nid == n)).isSome := by
    rw [List.find?_isSome]
    exact ⟨nd0, hnd0, by simp [hid]⟩
  rcases Option.isSome_iff_exists.mp hsome with ⟨nd, hnd⟩
  exact ⟨nd, hnd, by simpa using List.find?_some hnd⟩

theorem not_mem_ids_find? {p : Pathway} {n : Nat} (h : n ∉ p.ids) :
    p.nodes.find? (fun nd => nd.nid == n) = none := by
  rw [List.find?_eq_none]
  intro nd hnd
  simp only [beq_iff_eq]
  intro heq
  exact h (List.mem_map.mpr ⟨nd, hnd, heq⟩)

theorem depthOf_not_mem {p : Pathway} {n : Nat} (h : n ∉ p.ids) :
    p.depthOf n = none := by
  simp [Pathway.depthOf, not_mem_ids_find? h]

theorem relax_edges (p : Pathway) : p.relaxDepths.edges = p.edges := rfl

theorem relax_rootId (p : Pathway) : p.relaxDepths.rootId = p.rootId := rfl

theorem relax_ids (p : Pathway) : p.relaxDepths.ids = p.ids := by
  simp [Pathway.relaxDepths, Pathway.ids]

theorem relax_arcB (p : Pathway) (a b : Nat) : p.relaxDepths.arcB a b = p.arcB a b := rfl

theorem pathLenB_congr {p q : Pathway} (hids : p.ids = q.ids)
    (harc : ∀ a b, p.arcB a b = q.arcB a b) :
    ∀ (k a b : Nat), p.pathLenB k a b = q.pathLenB k a b := by
  intro k
  induction k with
  | zero => intro a b; rfl
  | succ n ih =>
    intro a b
    rw [Bool.eq_iff_iff]
    constructor
    · intro h
      rcases pathLenB_succ_iff.mp h with ⟨c, hc, h1, h2⟩
      exact pathLenB_succ_iff.mpr ⟨c, hids ▸ hc, harc a c ▸ h1, ih c b ▸ h2⟩
    · intro h
      rcases pathLenB_succ_iff.mp h with ⟨c, hc, h1, h2⟩
      refine pathLenB_succ_iff.mpr ⟨c, ?_, ?_, ?_⟩
      · rw [hids]; exact hc
      · rw [harc a c]; exact h1
      · rw [ih c b]; exact h2

theorem relax_pathLenB (p : Pathway) (k a b : Nat) :
    p.relaxDepths.pathLenB k a b = p.pathLenB k a b :=
  pathLenB_congr (relax_ids p) (relax_arcB p) k a b

theorem relax_scoped {p : Pathway} (hs : p.Scoped) : p.relaxDepths.Scoped := by
  intro e he
  rw [relax_edges] at he
  rcases hs e he with ⟨h1, h2, h3, h4⟩
  refine ⟨h1, h2, ?_, ?_⟩
  · intro a ha; rw [relax_ids]; exact h3 a ha
  · intro b hb; rw [relax_ids]; exact h4 b hb

theorem depthOf_relax_mem {p : Pathway} {n : Nat} (h : n ∈ p.ids) :
    p.relaxDepths.depthOf n = omin (p.depthOf n) (p.inMin n) := by
  rcases mem_ids_find? h with ⟨nd, hnd, hid⟩
  have hmap := find?_map_nid (fun nd => { nd with depth := omin nd.depth (p.inMin nd.nid) })
    (fun _ => rfl) p.nodes n
  rw [hnd] at hmap
  simp only [Pathway.relaxDepths, Pathway.depthOf] at *
  rw [hmap]
  simp [Pathway.depthOf, hnd, hid]

theorem depthOf_relax_not_mem {p : Pathway} {n : Nat} (h : n ∉ p.ids) :
    p.relaxDepths.depthOf n = none := by
  have h' : n ∉ p.relaxDepths.ids := by rw [relax_ids]; exact h
  exact depthOf_not_mem h'

theorem omin_some_cases {a b : Option Nat} {m : Nat} (h : omin a b = some m) :
    a = some m ∨ b = some m := by
  rcases omin_choice a b with h' | h'
  · left; rw [← h']; exact h
  · right; rw [← h']; exact h

theorem inMin_attained {p : Pathway} {n : Nat} {v : Nat} (h : p.inMin n = some v) :
    ∃ a ∈ p.ids, p.arcB a n = true ∧ osucc (p.depthOf a) = some v := by
  rcases foldr_omin_attained
    ((p.ids.filter (fun a => p.arcB a n)).map (fun a => osucc (p.depthOf a))) with h' | ⟨x, hx, h'⟩
  · rw [Pathway.inMin] at h; rw [h'] at h; cases h
  · rw [Pathway.inMin] at h
    rw [h'] at h
    rcases List.mem_map.mp hx with ⟨a, ha, rfl⟩
    rcases List.mem_filter.mp ha with ⟨ha1, ha2⟩
    exact ⟨a, ha1, ha2, h⟩

theorem inMin_le {p : Pathway} {n a : Nat} (ha : a ∈ p.ids) (harc : p.arcB a n = true) :
    oleB (p.inMin n) (osucc (p.depthOf a)) = true := by
  have hmem : osucc (p.depthOf a) ∈
      (p.ids.filter (fun a => p.arcB a n)).map (fun a => osucc (p.depthOf a)) :=
    List.mem_map.mpr ⟨a, List.mem_filter.mpr ⟨ha, harc⟩, rfl⟩
  exact foldr_omin_le_mem hmem

theorem UB_relax {p : Pathway} (hs : p.Scoped) (hub : p.UB) : p.relaxDepths.UB := by
  intro n m h
  rw [relax_pathLenB, relax_rootId]
  by_cases hmem : n ∈ p.ids
  · rw [depthOf_relax_mem hmem] at h
    rcases omin_some_cases h with h' | h'
    · exact hub n m h'
    · rcases inMin_attained h' with ⟨a, ha, harc, hsucc⟩
      cases hda : p.depthOf a with
      | none => rw [hda] at hsucc; cases hsucc
      | some m' =>
        rw [hda] at hsucc
        have hm : m = m' + 1 := by
          simp [osucc] at hsucc
          omega
        have := hub a m' hda
        subst hm
        exact pathLenB_snoc hs this harc
  · rw [depthOf_relax_not_mem hmem] at h
    cases h

theorem relax_decrease (p : Pathway) (n : Nat) :
    oleB (p.relaxDepths.depthOf n) (p.depthOf n) = true := by
  by_cases hmem : n ∈ p.ids
  · rw [depthOf_relax_mem hmem]
    exact oleB_omin_left _ _
  · rw [depthOf_relax_not_mem hmem, depthOf_not_mem hmem]
    exact oleB_refl none

theorem relaxN_edges (p : Pathway) : ∀ k, (p.relaxN k).edges = p.edges := by
  intro k
  induction k with
  | zero => rfl
  | succ n ih => rw [Pathway.relaxN, relax_edges, ih]

theorem relaxN_rootId (p : Pathway) : ∀ k, (p.relaxN k).rootId = p.rootId := by
  intro k
  induction k with
  | zero => rfl
  | succ n ih => rw [Pathway.relaxN, relax_rootId, ih]

theorem relaxN_ids (p : Pathway) : ∀ k, (p.relaxN k).ids = p.ids := by
  intro k
  induction k with
  | zero => rfl
  | succ n ih => rw [Pathway.relaxN, relax_ids, ih]

theorem relaxN_arcB (p : Pathway) (k a b : Nat) : (p.relaxN k).arcB a b = p.arcB a b := by
  simp [Pathway.arcB, relaxN_edges]

theorem relaxN_pathLenB (p : Pathway) (j k a b : Nat) :
    (p.relaxN k).pathLenB j a b = p.pathLenB j a b :=
  pathLenB_congr (relaxN_ids p k) (fun a b => relaxN_arcB p k a b) j a b

theorem relaxN_scoped {p : Pathway} (hs : p.Scoped) (k : Nat) : (p.relaxN k).Scoped := by
  intro e he
  rw [relaxN_edges] at he
  rcases hs e he with ⟨h1, h2, h3, h4⟩
  refine ⟨h1, h2, ?_, ?_⟩
  · intro a ha; rw [relaxN_ids]; exact h3 a ha
  · intro b hb; rw [relaxN_ids]; exact h4 b hb

theorem relaxN_UB {p : Pathway} (hs : p.Scoped) (hub : p.UB) : ∀ k, (p.relaxN k).UB := by
  intro k
  induction k with
  | zero => exact hub
  | succ n ih => exact UB_relax (relaxN_scoped hs n) ih

theorem relaxN_distW (p : Pathway) (k fuel a b : Nat) :
    (p.relaxN k).distW fuel a b = p.distW fuel a b := by
  simp only [Pathway.distW]
  congr 1
  funext j
  exact relaxN_pathLenB p j k a b

theorem relax_progress {p : Pathway} (hs : p.Scoped) (hroot0 : p.depthOf p.rootId = some 0) :
    ∀ (k n m : Nat), p.distW (p.ids.length + 1) p.rootId n = some m → m ≤ k →
      oleB ((p.relaxN k).depthOf n) (some m) = true := by
  intro k
  induction k with
  | zero =>
    intro n m hdist hm
    have hm0 : m = 0 := Nat.le_zero.mp hm
    subst hm0
    rcases findLeast_some hdist with ⟨h1, _, _⟩
    have hroot : p.rootId = n := pathLenB_zero_iff.mp h1
    show oleB (p.depthOf n) (some 0) = true
    rw [← hroot, hroot0]
    exact oleB_refl _
  | succ k ih =>
    intro n m hdist hm
    by_cases hmk : m ≤ k
    · have h1 := ih n m hdist hmk
      have h2 := relax_decrease (p.relaxN k) n
      exact oleB_trans h2 h1
    · have hmeq : m = k + 1 := by omega
      subst hmeq
      rcases findLeast_some hdist with ⟨hpath, hlt, _⟩
      rcases pathLenB_snoc_decomp hpath with ⟨c, hpc, harc⟩
      have hc : c ∈ p.ids := arcB_start_mem hs harc
      have hn : n ∈ p.ids := pathLenB_end_mem hpath
      rcases distW_found (le_refl _) hpc with ⟨m', hm', hdc⟩
      have ihc := ih c m' hdc (by omega)
      have hids : n ∈ (p.relaxN k).ids := by rw [relaxN_ids]; exact hn
      have hstep : (p.relaxN (k+1)).depthOf n =
          omin ((p.relaxN k).depthOf n) ((p.relaxN k).inMin n) := depthOf_relax_mem hids
      have hcmem : c ∈ (p.relaxN k).ids := by rw [relaxN_ids]; exact hc
      have harck : (p.relaxN k).arcB c n = true := by rw [relaxN_arcB]; exact harc
      have hin := inMin_le hcmem harck
      have hmono := oleB_osucc_mono ihc
      have hlast : oleB (some (m' + 1)) (some (k+1)) = true := oleB_some_iff.mpr (by omega)
      rw [hstep]
      refine oleB_trans (oleB_omin_right _ _) (oleB_trans hin (oleB_trans hmono ?_))
      rw [osucc_some]
      exact hlast

/-- Bellman-Ford style convergence: iterating the relaxation as many times
as there are nodes turns any sound upper-bound depth assignment rooted at
depth 0 into the exact shortest-path distances. -/
theorem relax_converges {p : Pathway} (hs : p.Scoped) (hub : p.UB)
    (hroot0 : p.depthOf p.rootId = some 0) :
    ∀ n, (p.relaxN p.ids.length).depthOf n =
      p.distW (p.ids.length + 1) p.rootId n := by
  intro n
  have hubV : (p.relaxN p.ids.length).UB := relaxN_UB hs hub _
  cases hdist : p.distW (p.ids.length + 1) p.rootId n with
  | some m =>
    rcases findLeast_some hdist with ⟨_, hlt, _⟩
    have hprog := relax_progress hs hroot0 p.ids.length n m hdist (by omega)
    cases hdep : (p.relaxN p.ids.length).depthOf n with
    | none =>
      rw [hdep] at hprog
      simp [oleB] at hprog
    | some m' =>
      rw [hdep] at hprog
      have hm'm : m' ≤ m := oleB_some_iff.mp hprog
      have hpath := hubV n m' hdep
      rw [relaxN_pathLenB, relaxN_rootId] at hpath
      rcases distW_found (le_refl _) hpath with ⟨m'', hm'', hd2⟩
      rw [hdist] at hd2
      have hmeq : m'' = m := (Option.some_inj.mp hd2).symm
      have hfin : m = m' := by omega
      rw [hfin]
  | none =>
    cases hdep : (p.relaxN p.ids.length).depthOf n with
    | none => rfl
    | some m' =>
      have hpath := hubV n m' hdep
      rw [relaxN_pathLenB, relaxN_rootId] at hpath
      have := (distW_none_iff (le_refl _)).mp hdist m'
      rw [this] at hpath
      cases hpath

theorem insertRaw_edges (p : Pathway) (e : Edge) :
    (p.insertRaw e).edges = p.edges ++ [e] := rfl

theorem insertRaw_rootId (p : Pathway) (e : Edge) :
    (p.insertRaw e).rootId = p.rootId := rfl

theorem insertRaw_ids (p : Pathway) (e : Edge) :
    (p.insertRaw e).ids = p.ids ++ (e.endIds.filter (fun t => !(p.ids.contains t))).dedup := by
  simp [Pathway.insertRaw, Pathway.ids, Function.comp_def]

theorem insertRaw_arcB (p : Pathway) (e : Edge) (a b : Nat) :
    (p.insertRaw e).arcB a b =
      (p.arcB a b || (e.startIds.contains a && e.endIds.contains b)) := by
  simp [Pathway.arcB, insertRaw_edges, List.any_append]

theorem insertRaw_ids_mono {p : Pathway} {e : Edge} {n : Nat} (h : n ∈ p.ids) :
    n ∈ (p.insertRaw e).ids := by
  rw [insertRaw_ids]
  exact List.mem_append.mpr (Or.inl h)

theorem pathLenB_mono {p q : Pathway} (hids : ∀ n, n ∈ p.ids → n ∈ q.ids)
    (harc : ∀ a b, p.arcB a b = true → q.arcB a b = true) :
    ∀ (k a b : Nat), p.pathLenB k a b = true → q.pathLenB k a b = true := by
  intro k
  induction k with
  | zero => intro a b h; exact pathLenB_zero_iff.mpr (pathLenB_zero_iff.mp h)
  | succ n ih =>
    intro a b h
    rcases pathLenB_succ_iff.mp h with ⟨c, hc, h1, h2⟩
    exact pathLenB_succ_iff.mpr ⟨c, hids c hc, harc a c h1, ih c b h2⟩

theorem insertRaw_pathLenB_mono {p : Pathway} {e : Edge} {k a b : Nat}
    (h : p.pathLenB k a b = true) : (p.insertRaw e).pathLenB k a b = true := by
  refine pathLenB_mono (fun n hn => insertRaw_ids_mono hn) (fun a b ha => ?_) k a b h
  rw [insertRaw_arcB]
  exact Or.inl ha |> Bool.or_eq_true_iff.mpr

theorem insertRaw_depthOf_old {p : Pathway} {e : Edge} {n : Nat} (hn : n ∈ p.ids) :
    (p.insertRaw e).depthOf n = p.depthOf n := by
  rcases mem_ids_find? hn with ⟨nd, hnd, hid⟩
  have : (p.insertRaw e).nodes.find? (fun nd => nd.nid == n) = some nd := by
    show (p.nodes ++ _).find? (fun nd => nd.nid == n) = some nd
    rw [List.find?_append, hnd]
    rfl
  simp [Pathway.depthOf, this, hnd]

theorem insertRaw_depthOf_new {p : Pathway} {e : Edge} {n : Nat} (hn : n ∉ p.ids) :
    (p.insertRaw e).depthOf n = none := by
  have hold : p.nodes.find? (fun nd => nd.nid == n) = none := not_mem_ids_find? hn
  have hq : (p.insertRaw e).nodes.find? (fun nd => nd.nid == n) =
      (((e.endIds.filter (fun t => !(p.ids.contains t))).dedup).map
        (fun t => { nid := t, depth := none : Node })).find? (fun nd => nd.nid == n) := by
    show (p.nodes ++ _).find? (fun nd => nd.nid == n) = _
    rw [List.find?_append, hold]
    rfl
  simp only [Pathway.depthOf, hq]
  cases hfind : (((e.endIds.filter (fun t => !(p.ids.contains t))).dedup).map
      (fun t => { nid := t, depth := none : Node })).find? (fun nd => nd.nid == n) with
  | none => rfl
  | some nd =>
    have hmem := List.mem_of_find?_eq_some hfind
    rcases List.mem_map.mp hmem with ⟨t, _, rfl⟩
    rfl

/-- Splitting paths of the extended graph: a path either already exists in
the old graph, or it reaches a start node of the new edge by an old path
and leaves from an end node of the new edge by an old path. -/
theorem insert_path_split {p : Pathway} (hs : p.Scoped) (e : Edge) :
    ∀ (k x y : Nat), (p.insertRaw e).pathLenB k x y = true →
      p.pathLenB k x y = true ∨
        ((∃ s ∈ e.startIds, ∃ j, p.pathLenB j x s = true) ∧
         (∃ t ∈ e.endIds, ∃ j, p.pathLenB j t y = true)) := by
  intro k
  induction k with
  | zero => intro x y h; exact Or.inl h
  | succ n ih =>
    intro x y h
    rcases pathLenB_succ_iff.mp h with ⟨c, hc, harc, hrest⟩
    rw [insertRaw_arcB] at harc
    rcases Bool.or_eq_true_iff.mp harc with hold | hnew
    · have hcp : c ∈ p.ids := arcB_end_mem hs hold
      rcases ih c y hrest with h' | ⟨⟨s, hsmem, j, hp1⟩, hT⟩
      · exact Or.inl (pathLenB_succ_iff.mpr ⟨c, hcp, hold, h'⟩)
      · refine Or.inr ⟨⟨s, hsmem, j + 1, ?_⟩, hT⟩
        exact pathLenB_succ_iff.mpr ⟨c, hcp, hold, hp1⟩
    · rcases Bool.and_eq_true_iff.mp hnew with ⟨hxS, hcT⟩
      have hxS' : x ∈ e.startIds := by simpa using hxS
      have hcT' : c ∈ e.endIds := by simpa using hcT
      rcases ih c y hrest with h' | ⟨_, hT⟩
      · exact Or.inr ⟨⟨x, hxS', 0, pathLenB_self p x⟩, ⟨c, hcT', n, h'⟩⟩
      · exact Or.inr ⟨⟨x, hxS', 0, pathLenB_self p x⟩, hT⟩

/-- If no end node of the new edge reaches a start node in the old graph,
inserting the edge keeps the graph acyclic. -/
theorem insert_acyclic {p : Pathway} (hs : p.Scoped) (hacyc : p.Acyclic) (e : Edge)
    (hcheck : ∀ t ∈ e.endIds, ∀ s ∈ e.startIds, ∀ j, p.pathLenB j t s = false) :
    (p.insertRaw e).Acyclic := by
  intro n k
  cases hb : (p.insertRaw e).pathLenB (k+1) n n with
  | false => rfl
  | true =>
    exfalso
    rcases insert_path_split hs e (k+1) n n hb with h' | ⟨⟨s, hsmem, j1, hp1⟩, ⟨t, htmem, j2, hp2⟩⟩
    · rw [hacyc n k] at h'
      cases h'
    · have := pathLenB_concat hp2 hp1
      rw [hcheck t htmem s hsmem (j2 + j1)] at this
      cases this

theorem reachB_iff {p : Pathway} {a b : Nat} :
    p.reachB a b = true ↔ ∃ k, p.pathLenB k a b = true := by
  constructor
  · intro h
    rcases Option.isSome_iff_exists.mp h with ⟨m, hm⟩
    rcases findLeast_some hm with ⟨h1, _, _⟩
    exact ⟨m, h1⟩
  · rintro ⟨k, hk⟩
    rcases distW_found (le_refl _) hk with ⟨m, _, hm⟩
    rw [Pathway.reachB, hm]
    rfl

theorem check_false_imp {p : Pathway} {e : Edge}
    (hchk : (e.endIds.any (fun t => e.startIds.any (fun s => p.reachB t s))) = false) :
    ∀ t ∈ e.endIds, ∀ s ∈ e.startIds, ∀ j, p.pathLenB j t s = false := by
  intro t ht s hsm j
  cases hb : p.pathLenB j t s with
  | false => rfl
  | true =>
    exfalso
    have hreach : p.reachB t s = true := reachB_iff.mpr ⟨j, hb⟩
    have h1 : (e.startIds.any fun s => p.reachB t s) = false :=
      Bool.eq_false_iff.mpr (List.any_eq_false.mp hchk t ht)
    exact (List.any_eq_false.mp h1 s hsm) hreach

theorem addEdge_ok_elim {p : Pathway} {e : Edge} {q : Pathway} (h : p.addEdge e = .ok q) :
    e.startIds.isEmpty = false ∧ e.endIds.isEmpty = false ∧
    (e.startIds.all (fun s => p.ids.contains s)) = true ∧
    (e.endIds.contains p.rootId) = false ∧
    (e.endIds.any (fun t => e.startIds.any (fun s => p.reachB t s))) = false ∧
    q = (p.insertRaw e).relaxN (p.insertRaw e).ids.length := by
  rw [Pathway.addEdge] at h
  by_cases h1 : (e.startIds.isEmpty || e.endIds.isEmpty
      || !(e.startIds.all (fun s => p.ids.contains s))) = true
  · rw [if_pos h1] at h
    cases h
  · have h1' : (e.startIds.isEmpty || e.endIds.isEmpty
        || !(e.startIds.all (fun s => p.ids.contains s))) = false := Bool.eq_false_iff.mpr h1
    rw [if_neg h1] at h
    rcases Bool.or_eq_false_iff.mp h1' with ⟨h12, h13⟩
    rcases Bool.or_eq_false_iff.mp h12 with ⟨ha, hb⟩
    have hc : (e.startIds.all (fun s => p.ids.contains s)) = true := by
      cases hx : e.startIds.all (fun s => p.ids.contains s) with
      | true => rfl
      | false => rw [hx] at h13; cases h13
    by_cases h2 : (e.endIds.contains p.rootId
        || e.endIds.any (fun t => e.startIds.any (fun s => p.reachB t s))) = true
    · rw [if_pos h2] at h
      cases h
    · have h2' : (e.endIds.contains p.rootId
          || e.endIds.any (fun t => e.startIds.any (fun s => p.reachB t s))) = false :=
        Bool.eq_false_iff.mpr h2
      rw [if_neg h2] at h
      rcases Bool.or_eq_false_iff.mp h2' with ⟨hd, he⟩
      have hq : (p.insertRaw e).relaxN (p.insertRaw e).ids.length = q := by
        injection h
      exact ⟨ha, hb, hc, hd, he, hq.symm⟩

/-- A wellformed pathway satisfies the relaxation fixpoint inequality along
every arc. -/
theorem WF_arc_relax {q : Pathway} (hwf : q.WF) :
    ∀ a b, q.arcB a b = true → oleB (q.depthOf b) (osucc (q.depthOf a)) = true := by
  obtain ⟨hnd, hs, hacyc, ⟨hrmem, hr0, hrin⟩, hdok⟩ := hwf
  intro a b harc
  have ha : a ∈ q.ids := arcB_start_mem hs harc
  have hb : b ∈ q.ids := arcB_end_mem hs harc
  cases hda : q.depthOf a with
  | none => rw [show osucc none = none from rfl]; exact oleB_none_right _
  | some ma =>
    have hda' := hdok a ha
    rw [hda] at hda'
    rcases findLeast_some hda'.symm with ⟨hpath, _, _⟩
    have hpath' : q.pathLenB (ma + 1) q.rootId b = true := pathLenB_snoc hs hpath harc
    rcases distW_found (le_refl _) hpath' with ⟨mb, hmb, hdb⟩
    have hdb' := hdok b hb
    rw [hdb] at hdb'
    rw [hdb', osucc_some]
    exact oleB_some_iff.mpr (by omega)

theorem addEdge_WF {p : Pathway} {e : Edge} {q : Pathway} (hwf : p.WF)
    (h : p.addEdge e = .ok q) :
    q.WF ∧ q.edges = p.edges ++ [e] ∧ q.rootId = p.rootId ∧
      (∀ n, n ∈ p.ids → n ∈ q.ids) ∧
      (∀ n, oleB (q.depthOf n) (p.depthOf n) = true) := by
  obtain ⟨hnd, hs, hacyc, ⟨hrmem, hr0, hrin⟩, hdok⟩ := hwf
  rcases addEdge_ok_elim h with ⟨hne1, hne2, hallS, hrootT, hchk, rfl⟩
  have hsq0 : (p.insertRaw e).Scoped := by
    intro e' he'
    rw [insertRaw_edges] at he'
    rcases List.mem_append.mp he' with hold | hnew
    · rcases hs e' hold with ⟨a1, a2, a3, a4⟩
      exact ⟨a1, a2, fun a ha => insertRaw_ids_mono (a3 a ha),
        fun b hb => insertRaw_ids_mono (a4 b hb)⟩
    · have heq : e' = e := by simpa using hnew
      subst heq
      refine ⟨?_, ?_, ?_, ?_⟩
      · intro hemp
        rw [hemp] at hne1
        cases hne1
      · intro hemp
        rw [hemp] at hne2
        cases hne2
      · intro a ha
        have := List.all_eq_true.mp hallS a ha
        exact insertRaw_ids_mono (by simpa using this)
      · intro b hb
        by_cases hmem : b ∈ p.ids
        · exact insertRaw_ids_mono hmem
        · rw [insertRaw_ids]
          refine List.mem_append.mpr (Or.inr ?_)
          rw [List.mem_dedup]
          exact List.mem_filter.mpr ⟨hb, by simpa using hmem⟩
  have hndq0 : (p.insertRaw e).ids.Nodup := by
    rw [insertRaw_ids, List.nodup_append]
    refine ⟨hnd, List.nodup_dedup _, ?_⟩
    intro a ha hmem
    rw [List.mem_dedup] at hmem
    rcases List.mem_filter.mp hmem with ⟨_, hnotin⟩
    simp at hnotin
    exact hnotin ha
  have hacq0 : (p.insertRaw e).Acyclic := insert_acyclic hs hacyc e (check_false_imp hchk)
  have hub0 : (p.insertRaw e).UB := by
    intro n m hdep
    by_cases hmem : n ∈ p.ids
    · rw [insertRaw_depthOf_old hmem] at hdep
      have hdn := hdok n hmem
      rw [hdep] at hdn
      rcases findLeast_some hdn.symm with ⟨hpath, _, _⟩
      have : (p.insertRaw e).pathLenB m p.rootId n = true := insertRaw_pathLenB_mono hpath
      rw [insertRaw_rootId]
      exact this
    · rw [insertRaw_depthOf_new hmem] at hdep
      cases hdep
  have hr0q0 : (p.insertRaw e).depthOf (p.insertRaw e).rootId = some 0 := by
    rw [insertRaw_rootId, insertRaw_depthOf_old hrmem]
    exact hr0
  have hconv := relax_converges hsq0 hub0 hr0q0
  set V := (p.insertRaw e).ids.length with hV
  have hids : ((p.insertRaw e).relaxN V).ids = (p.insertRaw e).ids := relaxN_ids _ _
  have hroot : ((p.insertRaw e).relaxN V).rootId = p.rootId := by
    rw [relaxN_rootId, insertRaw_rootId]
  refine ⟨⟨?_, ?_, ?_, ⟨?_, ?_, ?_⟩, ?_⟩, ?_, hroot, ?_, ?_⟩
  · rw [hids]; exact hndq0
  · exact relaxN_scoped hsq0 V
  · intro n k
    rw [relaxN_pathLenB]
    exact hacq0 n k
  · rw [hids, hroot]
    exact insertRaw_ids_mono hrmem
  · rw [hroot]
    have := hconv p.rootId
    rw [show (p.insertRaw e).rootId = p.rootId from rfl] at this
    rw [this]
    exact distW_self (by omega)
  · intro a
    rw [relaxN_arcB, insertRaw_arcB, hroot]
    rw [hrin a, hrootT]
    simp
  · intro n hn
    rw [hids] at hn
    have := hconv n
    rw [show (p.insertRaw e).rootId = p.rootId from rfl] at this
    rw [this]
    rw [relaxN_distW, hids, hroot]
  · rw [relaxN_edges, insertRaw_edges]
  · intro n hn
    rw [hids]
    exact insertRaw_ids_mono hn
  · intro n
    cases hp : p.depthOf n with
    | none => exact oleB_none_right _
    | some m =>
      have hmem : n ∈ p.ids := by
        by_contra hcon
        rw [depthOf_not_mem hcon] at hp
        cases hp
      have hdn := hdok n hmem
      rw [hp] at hdn
      rcases findLeast_some hdn.symm with ⟨hpath, _, _⟩
      have hpc : (p.insertRaw e).pathLenB m (p.insertRaw e).rootId n = true := by
        rw [insertRaw_rootId]
        exact insertRaw_pathLenB_mono hpath
      rcases distW_found (le_refl _) hpc with ⟨m', hm', hdq⟩
      have := hconv n
      rw [this, hdq]
      exact oleB_some_iff.mpr hm'

theorem addNode_ok_elim {p : Pathway} {n : Nat} {q : Pathway} (h : p.addNode n = .ok q) :
    p.manualMode = true ∧ n ∉ p.ids ∧
      q = { p with nodes := p.nodes ++ [{ nid := n, depth := none }] } := by
  rw [Pathway.addNode] at h
  by_cases h1 : (!p.manualMode) = true
  · rw [if_pos h1] at h
    cases h
  · rw [if_neg h1] at h
    by_cases h2 : (p.ids.contains n) = true
    · rw [if_pos h2] at h
      cases h
    · rw [if_neg h2] at h
      exact ⟨by simpa using h1, by simpa using h2, (Except.ok.inj h).symm⟩

theorem arcB_congr_edges {p q : Pathway} (hedges : q.edges = p.edges) (a b : Nat) :
    q.arcB a b = p.arcB a b := by
  simp [Pathway.arcB, hedges]

theorem pathLenB_ext_ids {p q : Pathway} (hedges : q.edges = p.edges)
    (hsub : ∀ n, n ∈ p.ids → n ∈ q.ids) (hs : p.Scoped) :
    ∀ (k a b : Nat), q.pathLenB k a b = p.pathLenB k a b := by
  intro k
  induction k with
  | zero => intro a b; rfl
  | succ j ih =>
    intro a b
    rw [Bool.eq_iff_iff]
    constructor
    · intro h
      rcases pathLenB_succ_iff.mp h with ⟨c, _, h1, h2⟩
      rw [arcB_congr_edges hedges] at h1
      exact pathLenB_succ_iff.mpr ⟨c, arcB_end_mem hs h1, h1, (ih c b).symm ▸ h2⟩
    · intro h
      rcases pathLenB_succ_iff.mp h with ⟨c, hc, h1, h2⟩
      refine pathLenB_succ_iff.mpr ⟨c, hsub c hc, ?_, ?_⟩
      · rw [arcB_congr_edges hedges]; exact h1
      · rw [ih c b]; exact h2

theorem addNode_WF {p : Pathway} {n : Nat} {q : Pathway} (hwf : p.WF)
    (h : p.addNode n = .ok q) :
    q.WF ∧ q.edges = p.edges ∧ q.rootId = p.rootId ∧ q.ids = p.ids ++ [n] ∧
      (∀ m, m ∈ p.ids → q.depthOf m = p.depthOf m) ∧ q.depthOf n = none := by
  obtain ⟨hnd, hs, hacyc, ⟨hrmem, hr0, hrin⟩, hdok⟩ := hwf
  rcases addNode_ok_elim h with ⟨hmode, hfresh, rfl⟩
  set q : Pathway := { p with nodes := p.nodes ++ [{ nid := n, depth := none }] } with hqdef
  have hqedges : q.edges = p.edges := rfl
  have hqroot : q.rootId = p.rootId := rfl
  have hqids : q.ids = p.ids ++ [n] := by
    rw [hqdef]
    simp [Pathway.ids]
  have hsubset : ∀ m, m ∈ p.ids → m ∈ q.ids := by
    intro m hm
    rw [hqids]
    exact List.mem_append.mpr (Or.inl hm)
  have hdepth_old : ∀ m, m ∈ p.ids → q.depthOf m = p.depthOf m := by
    intro m hm
    rcases mem_ids_find? hm with ⟨nd, hnd, hid⟩
    have hfq : q.nodes.find? (fun nd => nd.nid == m) = some nd := by
      show (p.nodes ++ [({ nid := n, depth := none } : Node)]).find? (fun nd => nd.nid == m) = some nd
      rw [List.find?_append, hnd]
      rfl
    simp [Pathway.depthOf, hfq, hnd]
  have hdepth_n : q.depthOf n = none := by
    have hold := not_mem_ids_find? hfresh
    have hfq : q.nodes.find? (fun nd => nd.nid == n) =
        ([({ nid := n, depth := none } : Node)]).find? (fun nd => nd.nid == n) := by
      show (p.nodes ++ _).find? (fun nd => nd.nid == n) = _
      rw [List.find?_append, hold]
      rfl
    simp [Pathway.depthOf, hfq]
  have hpaths : ∀ k a b, q.pathLenB k a b = p.pathLenB k a b :=
    pathLenB_ext_ids rfl hsubset hs
  have harcs : ∀ a b, q.arcB a b = p.arcB a b := arcB_congr_edges rfl
  have hpath_to_n : ∀ k, p.pathLenB k p.rootId n = false := by
    intro k
    cases k with
    | zero =>
      apply Bool.eq_false_iff.mpr
      intro hcon
      have := pathLenB_zero_iff.mp hcon
      rw [this] at hrmem
      exact hfresh hrmem
    | succ j =>
      apply Bool.eq_false_iff.mpr
      intro hcon
      exact hfresh (pathLenB_end_mem hcon)
  refine ⟨⟨?_, ?_, ?_, ⟨?_, ?_, ?_⟩, ?_⟩, hqedges, hqroot, hqids, hdepth_old, hdepth_n⟩
  · rw [hqids, List.nodup_append]
    refine ⟨hnd, List.nodup_singleton n, ?_⟩
    intro a ha hmem
    rw [List.mem_singleton] at hmem
    subst hmem
    exact hfresh ha
  · intro e he
    rw [hqedges] at he
    rcases hs e he with ⟨a1, a2, a3, a4⟩
    exact ⟨a1, a2, fun a ha => hsubset a (a3 a ha), fun b hb => hsubset b (a4 b hb)⟩
  · intro m k
    rw [hpaths]
    exact hacyc m k
  · rw [hqroot]
    exact hsubset _ hrmem
  · rw [hqroot, hdepth_old _ hrmem]
    exact hr0
  · intro a
    rw [hqroot, harcs]
    exact hrin a
  · intro m hm
    rw [hqids] at hm
    rcases List.mem_append.mp hm with hmp | hmn
    · rw [hdepth_old m hmp, hqroot]
      have hdd := hdok m hmp
      cases hdp : p.distW (p.ids.length + 1) p.rootId m with
      | some mm =>
        rw [hdp] at hdd
        have hsl : p.ShortestLen p.rootId m mm := (distW_some_iff (le_refl _)).mp hdp
        have hslq : q.ShortestLen p.rootId m mm := by
          refine ⟨?_, ?_⟩
          · rw [hpaths]; exact hsl.1
          · intro k hk; rw [hpaths]; exact hsl.2 k hk
        rw [hdd]
        exact ((distW_some_iff (le_refl _)).mpr hslq).symm
      | none =>
        rw [hdp] at hdd
        rw [hdd]
        have hnone := (distW_none_iff (le_refl _)).mp hdp
        refine ((distW_none_iff (le_refl _)).mpr ?_).symm
        intro k
        rw [hpaths]
        exact hnone k
    · rw [List.mem_singleton] at hmn
      subst hmn
      rw [hdepth_n, hqroot]
      refine ((distW_none_iff (le_refl _)).mpr ?_).symm
      intro k
      rw [hpaths]
      exact hpath_to_n k

theorem create_fst (rootNid : Nat) (b : Bool) :
    (Pathway.create rootNid b).1 =
      { rootId := rootNid, manualMode := b,
        nodes := [{ nid := rootNid, depth := some 0 }], edges := [] } := by
  rw [Pathway.create]
  cases b <;> rfl

theorem create_WF (rootNid : Nat) (b : Bool) : (Pathway.create rootNid b).1.WF := by
  rw [create_fst]
  set p : Pathway := ({ rootId := rootNid, manualMode := b, nodes := [{ nid := rootNid, depth := some 0 }], edges := [] } : Pathway) with hpdef
  have harc : ∀ a c, p.arcB a c = false := by
    intro a c
    rfl
  have hids : p.ids = [rootNid] := rfl
  refine ⟨?_, ?_, ?_, ⟨?_, ?_, ?_⟩, ?_⟩
  · rw [hids]; exact List.nodup_singleton _
  · intro e he
    cases he
  · intro n k
    apply Bool.eq_false_iff.mpr
    intro hcon
    rcases pathLenB_succ_iff.mp hcon with ⟨c, _, h1, _⟩
    rw [harc n c] at h1
    cases h1
  · rw [hids]; exact List.mem_singleton.mpr rfl
  · show p.depthOf p.rootId = some 0
    simp [Pathway.depthOf, List.find?]
  · intro a
    exact harc a _
  · intro m hm
    rw [hids, List.mem_singleton] at hm
    subst hm
    have hdm : p.depthOf m = some 0 := by
      simp [Pathway.depthOf, List.find?]
    rw [hdm]
    exact (distW_self (by omega)).symm

theorem WF_of_wfB {p : Pathway} (h : p.wfB = true) : p.WF := by
  rw [Pathway.wfB] at h
  rcases Bool.and_eq_true_iff.mp h with ⟨h4, h5⟩
  rcases Bool.and_eq_true_iff.mp h4 with ⟨h3, h4'⟩
  rcases Bool.and_eq_true_iff.mp h3 with ⟨h2, h3'⟩
  rcases Bool.and_eq_true_iff.mp h2 with ⟨h1, h2'⟩
  have hnd : p.ids.Nodup := of_decide_eq_true h1
  have hsc : p.Scoped := by
    intro e he
    have := List.all_eq_true.mp h2' e he
    rcases Bool.and_eq_true_iff.mp this with ⟨hx, hends⟩
    rcases Bool.and_eq_true_iff.mp hx with ⟨hy, hstarts⟩
    rcases Bool.and_eq_true_iff.mp hy with ⟨hs1, hs2⟩
    refine ⟨?_, ?_, ?_, ?_⟩
    · intro hemp
      rw [hemp] at hs1
      cases hs1
    · intro hemp
      rw [hemp] at hs2
      cases hs2
    · intro a ha
      have := List.all_eq_true.mp hstarts a ha
      simpa using this
    · intro b hb
      have := List.all_eq_true.mp hends b hb
      simpa using this
  have hacyc : p.Acyclic := by
    apply acyclic_of_acyclicB hsc
    exact h3'
  have hroot : p.RootOk := by
    rcases Bool.and_eq_true_iff.mp h4' with ⟨hx, hin⟩
    rcases Bool.and_eq_true_iff.mp hx with ⟨hmem, hdep⟩
    refine ⟨by simpa using hmem, by simpa using hdep, ?_⟩
    intro a
    cases hb : p.arcB a p.rootId with
    | false => rfl
    | true =>
      exfalso
      have ha : a ∈ p.ids := arcB_start_mem hsc hb
      have := List.all_eq_true.mp hin a ha
      rw [hb] at this
      cases this
  have hdok : p.DepthOk := by
    intro n hn
    have := List.all_eq_true.mp h5 n hn
    simpa using this
  exact ⟨hnd, hsc, hacyc, hroot, hdok⟩

theorem mergeValidated_ok_elim {p : Pathway} {s : JobSnapshot} {q : Pathway}
    (h : p.mergeValidated s = .ok q) : q = p.mergeSnapshot s ∧ q.wfB = true := by
  rw [Pathway.mergeValidated] at h
  by_cases hb : (p.mergeSnapshot s).wfB = true
  · rw [if_pos hb] at h
    have heq := Except.ok.inj h
    exact ⟨heq.symm, heq ▸ hb⟩
  · rw [if_neg hb] at h
    cases h

/-- Every pathway reachable through the construction surface satisfies the
maintained structural invariant. -/
theorem reachable_WF : ∀ {p : Pathway}, Reachable p → p.WF := by
  intro p h
  induction h with
  | created r b => exact create_WF r b
  | addNode _ hok ih => exact (addNode_WF ih hok).1
  | addEdge _ hok ih => exact (addEdge_WF ih hok).1
  | merged _ hok ih =>
    rcases mergeValidated_ok_elim hok with ⟨rfl, hwfb⟩
    exact WF_of_wfB hwfb

theorem hasIncomingB_iff {p : Pathway} {n : Nat} :
    p.hasIncomingB n = true ↔ ∃ e ∈ p.edges, n ∈ e.endIds := by
  simp [Pathway.hasIncomingB, List.any_eq_true]

theorem hasIncoming_of_arc {p : Pathway} {a n : Nat} (h : p.arcB a n = true) :
    p.hasIncomingB n = true := by
  rcases arcB_iff.mp h with ⟨e, he, _, hb⟩
  exact hasIncomingB_iff.mpr ⟨e, he, hb⟩

theorem arc_of_hasIncoming {p : Pathway} (hs : p.Scoped) {n : Nat}
    (h : p.hasIncomingB n = true) : ∃ a, p.arcB a n = true := by
  rcases hasIncomingB_iff.mp h with ⟨e, he, hn⟩
  rcases hs e he with ⟨hne, _, _, _⟩
  rcases List.exists_mem_of_ne_nil e.startIds hne with ⟨a, ha⟩
  exact ⟨a, arcB_iff.mpr ⟨e, he, ha, hn⟩⟩

theorem WF_depth_iff {p : Pathway} (hwf : p.WF) :
    ∀ n m, p.depthOf n = some m ↔ p.ShortestLen p.rootId n m := by
  obtain ⟨hnd, hs, hacyc, ⟨hrmem, hr0, hrin⟩, hdok⟩ := hwf
  intro n m
  constructor
  · intro h
    have hmem : n ∈ p.ids := by
      by_contra hcon
      rw [depthOf_not_mem hcon] at h
      cases h
    have hd := hdok n hmem
    rw [h] at hd
    exact (distW_some_iff (le_refl _)).mp hd.symm
  · intro hsl
    have hmem : n ∈ p.ids := by
      rcases hsl with ⟨hpath, _⟩
      cases m with
      | zero => rw [← pathLenB_zero_iff.mp hpath]; exact hrmem
      | succ k => exact pathLenB_end_mem hpath
    rw [hdok n hmem]
    exact (distW_some_iff (le_refl _)).mpr hsl

theorem WF_depth_pos_incoming {p : Pathway} (hwf : p.WF) {n m : Nat}
    (h : p.depthOf n = some m) (hne : n ≠ p.rootId) : p.hasIncomingB n = true := by
  rcases (WF_depth_iff hwf n m).mp h with ⟨hpath, _⟩
  cases m with
  | zero => exact absurd (pathLenB_zero_iff.mp hpath).symm hne
  | succ k =>
    rcases pathLenB_snoc_decomp hpath with ⟨c, _, harc⟩
    exact hasIncoming_of_arc harc

/-- C1 counterexample: the pathway obtained by creating a manual pathway
with root 0 and then calling add_node with node 1 is reachable through the
public construction surface, but the invariant claimed for every Pathway
fails on it: node 1 is a non-root node with no incoming Edge, so neither
uniqueness of the in-degree-0 node nor clause (iii) of the claim holds. -/
theorem c1_claim_counterexample :
    Reachable pDangling ∧ ¬ pDangling.ClaimInvariant := by
  constructor
  · exact @Reachable.addNode (Pathway.create 0 true).1 pDangling 1 (Reachable.created 0 true) (by decide)
  · intro hclaim
    have h3 := hclaim.2.2.2.1
    have hfalse := h3 1 (by decide) (by decide)
    exact absurd hfalse (by decide)

/-- C1 (amended): every reachable Pathway is acyclic, its root has depth 0
and no incoming Edge, a non-root node without incoming Edge is a dangling
add_node node whose depth is unset, every non-root node with a set depth
has at least one incoming Edge, and a node stores depth m exactly when the
shortest directed path from the root to it has length m.  The original
claim further asserted that the root is the only node without an incoming
Edge and that every non-root node has one; that fails on pathways holding
not-yet-connected nodes added by add_node (see the counterexample). -/
theorem c1_invariants_amended {p : Pathway} (h : Reachable p) :
    p.Acyclic ∧
    (p.rootId ∈ p.ids ∧ p.depthOf p.rootId = some 0 ∧ p.hasIncomingB p.rootId = false) ∧
    (∀ n ∈ p.ids, p.hasIncomingB n = false → n ≠ p.rootId → p.depthOf n = none) ∧
    (∀ n ∈ p.ids, n ≠ p.rootId → (∃ m, p.depthOf n = some m) → p.hasIncomingB n = true) ∧
    (∀ n m, p.depthOf n = some m ↔ p.ShortestLen p.rootId n m) := by
  have hwf := reachable_WF h
  obtain ⟨hnd, hs, hacyc, ⟨hrmem, hr0, hrin⟩, hdok⟩ := hwf
  have hwf' : p.WF := ⟨hnd, hs, hacyc, ⟨hrmem, hr0, hrin⟩, hdok⟩
  refine ⟨hacyc, ⟨hrmem, hr0, ?_⟩, ?_, ?_, WF_depth_iff hwf'⟩
  · cases hb : p.hasIncomingB p.rootId with
    | false => rfl
    | true =>
      exfalso
      rcases arc_of_hasIncoming hs hb with ⟨a, ha⟩
      rw [hrin a] at ha
      cases ha
  · intro n _ hno hne
    cases hd : p.depthOf n with
    | none => rfl
    | some m =>
      exfalso
      have hinc := WF_depth_pos_incoming hwf' hd hne
      rw [hno] at hinc
      cases hinc
  · rintro n _ hne ⟨m, hm⟩
    exact WF_depth_pos_incoming hwf' hm hne

/-- C1 witness: the amended invariant evaluated on a freshly created
pathway. -/
theorem c1_invariants_amended_witness :
    (Pathway.create 0 true).1.Acyclic ∧
    ((Pathway.create 0 true).1.rootId ∈ (Pathway.create 0 true).1.ids ∧
      (Pathway.create 0 true).1.depthOf (Pathway.create 0 true).1.rootId = some 0 ∧
      (Pathway.create 0 true).1.hasIncomingB (Pathway.create 0 true).1.rootId = false) ∧
    (∀ n ∈ (Pathway.create 0 true).1.ids,
      (Pathway.create 0 true).1.hasIncomingB n = false →
      n ≠ (Pathway.create 0 true).1.rootId → (Pathway.create 0 true).1.depthOf n = none) ∧
    (∀ n ∈ (Pathway.create 0 true).1.ids, n ≠ (Pathway.create 0 true).1.rootId →
      (∃ m, (Pathway.create 0 true).1.depthOf n = some m) →
      (Pathway.create 0 true).1.hasIncomingB n = true) ∧
    (∀ n m, (Pathway.create 0 true).1.depthOf n = some m ↔
      (Pathway.create 0 true).1.ShortestLen (Pathway.create 0 true).1.rootId n m) :=
  c1_invariants_amended (Reachable.created 0 true)

/-- C5: for a wellformed pathway, (a) an otherwise valid edge whose
insertion would create a cycle is rejected with an InvariantViolation (the
operation is functional, so the pathway is unchanged and stays acyclic),
and (b) a successful insertion appends the edge, keeps the graph acyclic,
recomputes the depths to exactly the shortest-path distances — the fixpoint
reached by applying the forward relaxation depth(end) =
min(depth(end), depth(start)+1) transitively — so they satisfy the
relaxation inequality along every arc, and the depth of an existing node
never increases. -/
theorem c5_add_edge {p : Pathway} (h : p.wfB = true) :
    (∀ e : Edge, e.startIds.isEmpty = false → e.endIds.isEmpty = false →
      (e.startIds.all (fun s => p.ids.contains s)) = true →
      ¬ (p.insertRaw e).Acyclic → p.addEdge e = .error .invariantViolation) ∧
    (∀ e q, p.addEdge e = .ok q →
      q.Acyclic ∧ q.edges = p.edges ++ [e] ∧
      (∀ n m, q.depthOf n = some m ↔ q.ShortestLen q.rootId n m) ∧
      (∀ a b, q.arcB a b = true → oleB (q.depthOf b) (osucc (q.depthOf a)) = true) ∧
      (∀ n, oleB (q.depthOf n) (p.depthOf n) = true)) := by
  have hwf := WF_of_wfB h
  constructor
  · intro e h1 h2 h3 hcyc
    rw [Pathway.addEdge]
    have hcond1 : (e.startIds.isEmpty || e.endIds.isEmpty
        || !(e.startIds.all (fun s => p.ids.contains s))) = false := by
      rw [h1, h2, h3]
      rfl
    rw [if_neg (by rw [hcond1]; simp)]
    by_cases hc2 : (e.endIds.contains p.rootId
        || e.endIds.any (fun t => e.startIds.any (fun s => p.reachB t s))) = true
    · rw [if_pos hc2]
    · exfalso
      have hc2' : (e.endIds.contains p.rootId
          || e.endIds.any (fun t => e.startIds.any (fun s => p.reachB t s))) = false :=
        Bool.eq_false_iff.mpr hc2
      rcases Bool.or_eq_false_iff.mp hc2' with ⟨_, hchk⟩
      exact hcyc (insert_acyclic hwf.2.1 hwf.2.2.1 e (check_false_imp hchk))
  · intro e q hok
    obtain ⟨hwfq, hedges, _, _, hdec⟩ := addEdge_WF hwf hok
    exact ⟨hwfq.2.2.1, hedges, WF_depth_iff hwfq, WF_arc_relax hwfq, hdec⟩

/-- C5 witness: a concrete successful insertion into a fresh root-only
pathway, with the depth of the new end node computed by the relaxation. -/
theorem c5_add_edge_witness :
    qWitness.Acyclic ∧ qWitness.edges = (Pathway.create 0 true).1.edges ++ [eWitness] ∧
    (∀ n m, qWitness.depthOf n = some m ↔ qWitness.ShortestLen qWitness.rootId n m) ∧
    (∀ a b, qWitness.arcB a b = true →
      oleB (qWitness.depthOf b) (osucc (qWitness.depthOf a)) = true) ∧
    (∀ n, oleB (qWitness.depthOf n) ((Pathway.create 0 true).1.depthOf n) = true) :=
  (@c5_add_edge (Pathway.create 0 true).1 (by decide)).2 eWitness qWitness (by decide)

theorem all_key_ne_eq_false_of_mem {α : Type} (key : α → Nat) {l : List α} {y x : α}
    (hy : y ∈ l) (hk : key y = key x) : (l.all (fun z => key z != key x)) = false := by
  apply Bool.eq_false_iff.mpr
  intro hall
  have := List.all_eq_true.mp hall y hy
  rw [hk] at this
  simp at this

theorem mergeBy_idem {α : Type} (key : α → Nat) (old new : List α) :
    mergeBy key (mergeBy key old new) new = mergeBy key old new := by
  have hfil : new.filter (fun x => (mergeBy key old new).all (fun y => key y != key x)) = [] := by
    rw [List.filter_eq_nil_iff]
    intro x hx hcon
    by_cases hold : (old.all (fun y => key y != key x)) = true
    · have hxin : x ∈ mergeBy key old new :=
        List.mem_append.mpr (Or.inr (List.mem_filter.mpr ⟨hx, hold⟩))
      have := List.all_eq_true.mp hcon x hxin
      simp at this
    · have hnall : ¬ ∀ y ∈ old, (key y != key x) = true := by
        intro hall
        exact hold (List.all_eq_true.mpr hall)
      push_neg at hnall
      rcases hnall with ⟨y, hy, hne⟩
      have hk : key y = key x := by
        by_contra hkk
        exact hne (by simpa using hkk)
      have hyin : y ∈ mergeBy key old new := List.mem_append.mpr (Or.inl hy)
      have := List.all_eq_true.mp hcon y hyin
      rw [hk] at this
      simp at this
  show (mergeBy key old new) ++ _ = mergeBy key old new
  rw [hfil, List.append_nil]

/-- C2: merging the same JobSnapshot into a Pathway twice yields exactly
the graph of merging it once — nodes and edges already present by
identifier are left untouched — and consequently a second poll of the same
snapshot performs no graph mutation on the job. -/
theorem c2_merge_idempotent :
    (∀ (p : Pathway) (s : JobSnapshot),
      (p.mergeSnapshot s).mergeSnapshot s = p.mergeSnapshot s) ∧
    (∀ (j : PredictionJob) (s : JobSnapshot),
      (poll (poll j (.ok s)).job (.ok s)).job = (poll j (.ok s)).job) := by
  have hidem : ∀ (p : Pathway) (s : JobSnapshot),
      (p.mergeSnapshot s).mergeSnapshot s = p.mergeSnapshot s := by
    intro p s
    simp [Pathway.mergeSnapshot, mergeBy_idem]
  refine ⟨hidem, ?_⟩
  intro j s
  by_cases hterm : j.status.terminal = true
  · have hpoll : poll j (.ok s) = { job := j, err := none } := by
      simp [poll, hterm]
    rw [hpoll]
    show (poll j (.ok s)).job = j
    rw [hpoll]
  · have hterm' : j.status.terminal = false := Bool.eq_false_iff.mpr hterm
    cases hst : s.status with
    | failed =>
      have hpoll : poll j (.ok s) =
          { job := { j with status := .Failed }, err := some .predictionFailedError } := by
        simp [poll, hterm', hst]
      rw [hpoll]
      simp [poll, JobStatus.terminal]
    | running =>
      cases hmv : j.pathway.mergeValidated s with
      | ok q =>
        rcases mergeValidated_ok_elim hmv with ⟨hq, hwfb⟩
        have hms : q.mergeSnapshot s = q := by
          rw [hq]
          exact hidem j.pathway s
        have hmv2 : q.mergeValidated s = .ok q := by
          rw [Pathway.mergeValidated, hms, if_pos hwfb]
        have hpoll : poll j (.ok s) =
            { job := { status := .Running, pathway := q }, err := none } := by
          simp [poll, hterm', hst, hmv]
        rw [hpoll]
        simp [poll, JobStatus.terminal, hst, hmv2]
      | error er =>
        have hpoll : poll j (.ok s) = { job := j, err := some er } := by
          simp [poll, hterm', hst, hmv]
        rw [hpoll]
        show (poll j (.ok s)).job = j
        rw [hpoll]
    | done =>
      cases hmv : j.pathway.mergeValidated s with
      | ok q =>
        have hpoll : poll j (.ok s) =
            { job := { status := .Done, pathway := q }, err := none } := by
          simp [poll, hterm', hst, hmv]
        rw [hpoll]
        simp [poll, JobStatus.terminal]
      | error er =>
        have hpoll : poll j (.ok s) = { job := j, err := some er } := by
          simp [poll, hterm', hst, hmv]
        rw [hpoll]
        show (poll j (.ok s)).job = j
        rw [hpoll]

/-- C7: a poll that observes remote status failed makes the job terminally
Failed without merging (the owning Pathway keeps exactly the partial graph
merged before the failure, and the PredictionFailedError is surfaced), and
every subsequent poll returns the same terminal job without any further
merge. -/
theorem c7_failed_terminal {j : PredictionJob} {snap : JobSnapshot}
    (hterm : j.status.terminal = false) (hfail : snap.status = .failed) :
    (poll j (.ok snap)).job.status = .Failed ∧
    (poll j (.ok snap)).job.pathway = j.pathway ∧
    (poll j (.ok snap)).err = some .predictionFailedError ∧
    (∀ f, (poll (poll j (.ok snap)).job f).job = (poll j (.ok snap)).job) := by
  have hpoll : poll j (.ok snap) =
      { job := { j with status := .Failed }, err := some .predictionFailedError } := by
    simp [poll, hterm, hfail]
  refine ⟨by rw [hpoll], by rw [hpoll], by rw [hpoll], ?_⟩
  intro f
  rw [hpoll]
  simp [poll, JobStatus.terminal]

/-- C7 witness: a concrete running job observing a failed snapshot. -/
theorem c7_failed_terminal_witness :
    (poll jWitness (.ok snapWitness)).job.status = .Failed ∧
    (poll jWitness (.ok snapWitness)).job.pathway = jWitness.pathway ∧
    (poll jWitness (.ok snapWitness)).err = some .predictionFailedError ∧
    (∀ f, (poll (poll jWitness (.ok snapWitness)).job f).job =
      (poll jWitness (.ok snapWitness)).job) :=
  c7_failed_terminal (by decide) (by decide)

/-- C8: a transient transport error during poll leaves the job — its
status and its pathway's node and edge sets — exactly as before the call,
and a transient error during object resolution leaves the resolver cache
unchanged, so the caller may safely retry. -/
theorem c8_transient_unchanged :
    (∀ j : PredictionJob, (poll j .transientError).job = j ∧
      (poll j .transientError).job.status = j.status ∧
      (poll j .transientError).job.pathway.nodes = j.pathway.nodes ∧
      (poll j .transientError).job.pathway.edges = j.pathway.edges) ∧
    (∀ (cache : List (Nat × Nat)) (oid : Nat) (er : EPError),
      (resolve cache oid (.error er)).1 = cache) := by
  constructor
  · intro j
    have h : (poll j .transientError).job = j := by
      by_cases hterm : j.status.terminal = true
      · simp [poll, hterm]
      · simp [poll, Bool.eq_false_iff.mpr hterm]
    exact ⟨h, by rw [h], by rw [h], by rw [h]⟩
  · intro cache oid er
    cases hf : cache.find? (fun kv => kv.1 == oid) with
    | some kv => simp [resolve, hf]
    | none => simp [resolve, hf]

/-- C10: Pathway.create with root_node_only = true yields a manual-mode
pathway holding only the root node (depth 0) and no prediction job, and it
can then be extended with add_node; create with root_node_only = false
yields the same root-only pathway handed to a Pending PredictionJob (the
prediction populates it asynchronously), and manual add_node on it is
rejected with a ValidationError. -/
theorem c10_create_modes (r : Nat) :
    ((Pathway.create r true).1.manualMode = true ∧
     (Pathway.create r true).1.nodes = [{ nid := r, depth := some 0 }] ∧
     (Pathway.create r true).2 = none ∧
     (∀ n, n ≠ r →
       (Pathway.create r true).1.addNode n =
         .ok { rootId := r, manualMode := true,
               nodes := [{ nid := r, depth := some 0 }, { nid := n, depth := none }],
               edges := [] })) ∧
    ((Pathway.create r false).1.manualMode = false ∧
     (Pathway.create r false).1.nodes = [{ nid := r, depth := some 0 }] ∧
     (Pathway.create r false).2 =
       some { status := .Pending, pathway := (Pathway.create r false).1 } ∧
     (∀ n, (Pathway.create r false).1.addNode n = .error .validationError)) := by
  refine ⟨⟨?_, ?_, ?_, ?_⟩, ⟨?_, ?_, ?_, ?_⟩⟩
  · rw [create_fst]
  · rw [create_fst]
  · rw [Pathway.create]
    rfl
  · intro n hne
    rw [create_fst, Pathway.addNode]
    rw [if_neg (by simp)]
    rw [if_neg ?_]
    · rfl
    · show ¬ (Pathway.ids _).contains n = true
      simp [Pathway.ids]
      exact hne
  · rw [create_fst]
  · rw [create_fst]
  · rw [Pathway.create]
    rfl
  · intro n
    rw [create_fst, Pathway.addNode]
    rw [if_pos (by simp)]

theorem rrLe_iff (s : Structure) (a b : RRRule) : rrLe s a b ↔ rrRank s a b := by
  simp only [rrLe, rrKey, Prod.Lex.le_iff, rrRank, neg_lt_neg_iff, neg_inj]

theorem sorted_perm_eq {α : Type} {R : α → α → Prop} :
    ∀ (l₁ l₂ : List α), l₁.Perm l₂ → l₁.Sorted R → l₂.Sorted R →
      (∀ a ∈ l₁, ∀ b ∈ l₁, R a b → R b a → a = b) → l₁ = l₂ := by
  intro l₁
  induction l₁ with
  | nil =>
    intro l₂ hp _ _ _
    exact (List.perm_nil.mp hp.symm).symm
  | cons a t₁ ih =>
    intro l₂ hp hs₁ hs₂ hanti
    cases l₂ with
    | nil => exact absurd (List.perm_nil.mp hp) (by simp)
    | cons b t₂ =>
      by_cases hab : a = b
      · subst hab
        have hpt : t₁.Perm t₂ := hp.cons_inv
        have htail := ih t₂ hpt hs₁.of_cons hs₂.of_cons
          (fun x hx y hy => hanti x (List.mem_cons_of_mem _ hx) y (List.mem_cons_of_mem _ hy))
        rw [htail]
      · have ha2 : a ∈ b :: t₂ := hp.mem_iff.mp (List.mem_cons_self _ _)
        have hb1 : b ∈ a :: t₁ := hp.symm.mem_iff.mp (List.mem_cons_self _ _)
        have hb1' : b ∈ t₁ := by
          rcases List.mem_cons.mp hb1 with h | h
          · exact absurd h.symm hab
          · exact h
        have ha2' : a ∈ t₂ := by
          rcases List.mem_cons.mp ha2 with h | h
          · exact absurd h hab
          · exact h
        have hRab : R a b := List.rel_of_sorted_cons hs₁ b hb1'
        have hRba : R b a := List.rel_of_sorted_cons hs₂ a ha2'
        exact absurd (hanti a (List.mem_cons_self _ _) b hb1 hRab hRba) hab

/-- C6: classification keeps exactly the matching rules of the setting,
orders them by descending score with ties broken by the model priority and
then the rule identifier, returns the empty ordered sequence (not an
error) when no rule matches, persists nothing to the store, and — when the
rule identifiers are distinct — is the unique such ordering, hence
deterministic. -/
theorem c6_classify (st : Setting) (s : Structure) (db : Store) :
    List.Sorted (rrRank s) (classify st s) ∧
    (∀ r, r ∈ classify st s ↔ (r ∈ st.rules ∧ r.rule.matches s = true)) ∧
    ((∀ r ∈ st.rules, r.rule.matches s = false) → classify st s = []) ∧
    (classifyWithStore st s db).1 = db ∧
    ((st.rules.map RRRule.ruleId).Nodup →
      ∀ l, l.Perm (classify st s) → List.Sorted (rrRank s) l → l = classify st s) := by
  have hsortLe : List.Sorted (rrLe s) (classify st s) :=
    List.sorted_insertionSort _ _
  have hsort : List.Sorted (rrRank s) (classify st s) :=
    List.Pairwise.imp (fun h => (rrLe_iff s _ _).mp h) hsortLe
  have hmem : ∀ r, r ∈ classify st s ↔ (r ∈ st.rules ∧ r.rule.matches s = true) := by
    intro r
    rw [classify, List.mem_insertionSort, List.mem_filter]
  refine ⟨hsort, hmem, ?_, rfl, ?_⟩
  · intro hnone
    have hfil : st.rules.filter (fun r => r.rule.matches s) = [] := by
      rw [List.filter_eq_nil_iff]
      intro r hr
      rw [hnone r hr]
      simp
    rw [classify, hfil]
    rfl
  · intro hnd l hperm hsl
    apply sorted_perm_eq l (classify st s) hperm hsl hsort
    intro a ha b hb hr1 hr2
    have ha' : a ∈ st.rules := ((hmem a).mp (hperm.subset ha)).1
    have hb' : b ∈ st.rules := ((hmem b).mp (hperm.subset hb)).1
    have hid : a.ruleId = b.ruleId := by
      rcases hr1 with h1 | ⟨e1, h1 | ⟨f1, g1⟩⟩ <;>
        rcases hr2 with h2 | ⟨e2, h2 | ⟨f2, g2⟩⟩ <;> omega
    exact List.inj_on_of_nodup_map hnd ha' hb' hid

/-- C6 witness: classification of a concrete one-rule setting. -/
theorem c6_classify_witness :
    List.Sorted (rrRank ⟨0⟩) (classify stWitness ⟨0⟩) ∧
    (∀ r, r ∈ classify stWitness ⟨0⟩ ↔
      (r ∈ stWitness.rules ∧ r.rule.matches ⟨0⟩ = true)) ∧
    ((∀ r ∈ stWitness.rules, r.rule.matches ⟨0⟩ = false) → classify stWitness ⟨0⟩ = []) ∧
    (classifyWithStore stWitness ⟨0⟩ { compounds := [], reactions := [], nodes := [] }).1 =
      { compounds := [], reactions := [], nodes := [] } ∧
    ((stWitness.rules.map RRRule.ruleId).Nodup →
      ∀ l, l.Perm (classify stWitness ⟨0⟩) → List.Sorted (rrRank ⟨0⟩) l →
        l = classify stWitness ⟨0⟩) :=
  c6_classify stWitness ⟨0⟩ { compounds := [], reactions := [], nodes := [] }

/-- C9 witness: a simple rule with no matching site, a sequential composite
gated by it and a parallel composite of two non-matching stages all return
the empty set on a structure they do not match. -/
theorem c9_apply_nonmatch_empty_witness :
    (Rule.parComp (Rule.simple (fun _ => [])) [Rule.simple (fun _ => [])]).matches ⟨0⟩ = false ∧
    (Rule.parComp (Rule.simple (fun _ => [])) [Rule.simple (fun _ => [])]).apply ⟨0⟩ = ∅ :=
  ⟨by decide, c9_apply_nonmatch_empty
    (Rule.parComp (Rule.simple (fun _ => [])) [Rule.simple (fun _ => [])]) ⟨0⟩ (by decide)⟩

end EnviPath
